import Mathlib

/-!
Shallow embedding of the PDF stamper pipeline (src/app.py) and proofs about
its specification claims.

Conventions of the embedding:
* Python strings are Lean `String`s; character-level scanning works on `s.data`.
* Python floats in the layout computation are modelled as exact rationals `ℚ`
  (the quantities compared differ by far more than double rounding error).
* Spreadsheet cells (openpyxl, `data_only=True`) are modelled by `PyVal`:
  blank cells, text, integers and the NaN float.  Finite float cells are not
  modelled: no claim depends on their textual form.
* Fallible code returns `Except`.
* Several scanners use an explicit fuel argument equal to the input length so
  that every definition is structurally recursive and kernel-computable.
-/

/-- Characters treated as whitespace by Python's `\\s` (`re` module, `str.strip`):
ASCII whitespace plus the Unicode space code points (U+0085, U+00A0, U+1680,
U+2000..U+200A, U+2028, U+2029, U+202F, U+205F, U+3000). -/
def pySpace (c : Char) : Bool :=
  c = ' ' || c = '\t' || c = '\n' || c = '\r' || c = '\x0b' || c = '\x0c' ||
  c = '\u0085' || c = '\u00A0' || c = '\u1680' ||
  c = '\u2000' || c = '\u2001' || c = '\u2002' || c = '\u2003' ||
  c = '\u2004' || c = '\u2005' || c = '\u2006' || c = '\u2007' ||
  c = '\u2008' || c = '\u2009' || c = '\u200A' ||
  c = '\u2028' || c = '\u2029' || c = '\u202F' || c = '\u205F' || c = '\u3000'

/-- Separator class of `normalize_digits` and the spaced-run pattern:
`\\s`, U+00A0, U+202F, U+2009 and hyphen (the named spaces are already
inside `\\s`). -/
def isSepChar (c : Char) : Bool :=
  pySpace c || c = '-'

/-- Word characters for the regex `\b` boundary: Python's Unicode `\w`
restricted to the alphabets occurring in this pipeline's inputs (ASCII
letters, digits, underscore, and the Polish letters). -/
def isWordChar (c : Char) : Bool :=
  c.isAlphanum || c = '_' ||
  c = 'ą' || c = 'ć' || c = 'ę' || c = 'ł' || c = 'ń' || c = 'ó' || c = 'ś' ||
  c = 'ź' || c = 'ż' || c = 'Ą' || c = 'Ć' || c = 'Ę' || c = 'Ł' || c = 'Ń' ||
  c = 'Ó' || c = 'Ś' || c = 'Ź' || c = 'Ż'

/-- Python `str.lower` restricted to ASCII and the Polish alphabet. -/
def lowerChar (c : Char) : Char :=
  if 'A' ≤ c && c ≤ 'Z' then Char.ofNat (c.toNat + 32)
  else if c = 'Ą' then 'ą' else if c = 'Ć' then 'ć' else if c = 'Ę' then 'ę'
  else if c = 'Ł' then 'ł' else if c = 'Ń' then 'ń' else if c = 'Ó' then 'ó'
  else if c = 'Ś' then 'ś' else if c = 'Ź' then 'ź' else if c = 'Ż' then 'ż'
  else c

/-- Python `str.lower` on a whole string (ASCII + Polish letters). -/
def pyLower (s : String) : String :=
  ⟨s.data.map lowerChar⟩

/-- Python `str.isdigit` (ASCII digits; true iff non-empty and all digits). -/
def pyIsDigit (s : String) : Bool :=
  !s.data.isEmpty && s.data.all Char.isDigit

/-- `normalize_digits` from the source: delete every whitespace/nbsp/thin-space
and hyphen character (`re.sub` of the separator class with the empty string). -/
def normalize_digits (s : String) : String :=
  ⟨s.data.filter (fun c => !isSepChar c)⟩

/-- Splitting a character list at every delimiter character, keeping empty
pieces (the semantics of `str.split`-style single-character splitting;
Python's `re.split` on a delimiter-class-plus pattern equals this after the
empty pieces are dropped). -/
def pySplitList (p : Char → Bool) : List Char → List (List Char)
  | [] => [[]]
  | c :: rest =>
    if p c then [] :: pySplitList p rest
    else
      match pySplitList p rest with
      | [] => [[c]]
      | w :: ws => (c :: w) :: ws

/-- Python `str.strip`: drop leading and trailing whitespace. -/
def pyTrim (s : String) : String :=
  ⟨(((s.data.dropWhile pySpace).reverse).dropWhile pySpace).reverse⟩

/-! ### Token extractor (`extract_candidates`)

The three regex pattern families are modelled by explicit character scanners
with the same leftmost, non-overlapping, greedy-with-backtracking semantics as
Python `re.findall` has on these particular patterns. -/

/-- Scanner for the pattern `\b\d{4,8}\b`: maximal digit runs of length 4–8
whose neighbouring characters are not word characters.  `prevWord` records
whether the previously consumed character was a word character.  Fuel is the
input length (each step consumes at least one character). -/
def plainScan : Nat → List Char → Bool → List String
  | 0, _, _ => []
  | _, [], _ => []
  | fuel + 1, c :: rest, prevWord =>
    if c.isDigit && !prevWord then
      let run := c :: rest.takeWhile Char.isDigit
      let rest2 := rest.dropWhile Char.isDigit
      let afterOk := match rest2.head? with
        | none => true
        | some d => !isWordChar d
      if 4 ≤ run.length && run.length ≤ 8 && afterOk then
        String.mk run :: plainScan fuel rest2 true
      else
        plainScan fuel rest2 true
    else
      plainScan fuel rest (isWordChar c)

/-- Greedy parse of one "chain" for the spaced-run pattern
`(?<!\d)(?:\d[\s\u00A0\u202F\u2009\-]?){4,9}(?!\d)`: a maximal sequence of
units, each a digit optionally followed by one separator, where every unit
after the first starts with a digit.  Returns the units (digit, optional
separator) and the remaining input after the chain. -/
def grabChain : Nat → List Char → List (Char × Option Char) × List Char
  | 0, l => ([], l)
  | _, [] => ([], [])
  | fuel + 1, c :: rest =>
    if c.isDigit then
      match rest with
      | [] => ([(c, none)], [])
      | s :: rest2 =>
        if isSepChar s then
          match rest2 with
          | d :: _ =>
            if d.isDigit then
              let pr := grabChain fuel rest2
              ((c, some s) :: pr.1, pr.2)
            else ([(c, some s)], rest2)
          | [] => ([(c, some s)], [])
        else if s.isDigit then
          let pr := grabChain fuel rest
          ((c, none) :: pr.1, pr.2)
        else ([(c, none)], rest)
    else ([], c :: rest)

/-- The unit count the backtracking engine settles on for a chain of `m` units:
the largest `n` with `4 ≤ n ≤ min 9 m` such that either `n = m` or unit `n`
carries a separator (which the engine gives back to satisfy `(?!\d)`). -/
def findN (units : List (Char × Option Char)) : Option Nat :=
  let m := units.length
  [9, 8, 7, 6, 5, 4].find? (fun n =>
    n ≤ m && (n == m || (match units.get? (n - 1) with
      | some u => u.2.isSome
      | none => false)))

/-- Raw matched text of a list of units; the final unit's separator is kept
only when `keepLast` is true (i.e. when the match used the whole chain). -/
def rawUnits : List (Char × Option Char) → Bool → List Char
  | [], _ => []
  | [(c, so)], keepLast =>
    c :: (if keepLast then (match so with | some s => [s] | none => []) else [])
  | (c, so) :: rest, keepLast =>
    c :: ((match so with | some s => [s] | none => []) ++ rawUnits rest keepLast)

/-- Drop chain units up to and including the first unit carrying a separator:
the next position at which the engine can restart inside the chain (a digit
not preceded by a digit).  `none` when no unit has a separator. -/
def dropToStart : List (Char × Option Char) → Option (List (Char × Option Char))
  | [] => none
  | (_, some _) :: rest => some rest
  | (_, none) :: rest => dropToStart rest

/-- All raw matches of the spaced-run pattern inside one chain, in scan order. -/
def chainMatches : Nat → List (Char × Option Char) → List String
  | 0, _ => []
  | fuel + 1, units =>
    match findN units with
    | some n =>
      String.mk (rawUnits (units.take n) (n == units.length)) ::
        chainMatches fuel (units.drop n)
    | none =>
      match dropToStart units with
      | some rest => chainMatches fuel rest
      | none => []

/-- Scanner for the spaced-run pattern over the whole text.  A chain can only
start at a digit not preceded by a digit; after a chain the next character is
never a digit, so scanning the remainder afresh is faithful. -/
def fancyScan : Nat → List Char → List String
  | 0, _ => []
  | _, [] => []
  | fuel + 1, c :: rest =>
    if c.isDigit then
      let pr := grabChain (c :: rest).length (c :: rest)
      chainMatches pr.1.length pr.1 ++ fancyScan fuel pr.2
    else
      fancyScan fuel rest

/-- Case-insensitive literal match: `pat` must already be lower-case.
Returns the remaining input on success. -/
def matchCI : List Char → List Char → Option (List Char)
  | [], l => some l
  | _ :: _, [] => none
  | p :: ps, c :: cs => if lowerChar c = p then matchCI ps cs else none

/-- Character class `[\s:]` between the label and the captured run. -/
def wsColon (c : Char) : Bool :=
  pySpace c || c = ':'

/-- Capture class `[0-9\s\u00A0\u202F\u2009\-]` of the labeled pattern. -/
def capClass (c : Char) : Bool :=
  c.isDigit || pySpace c || c = '-'

/-- One match attempt of
`Sales\s*[\r\n ]*Order[\s:]*([0-9\s\u00A0\u202F\u2009\-]{4,12})` (case
insensitive) at the head of the input.  `[\r\n ]` is contained in `\s`, so the
label gap is a plain `\s*`.  When the greedy capture run is shorter than 4,
the engine backtracks into `[\s:]*`, giving back trailing whitespace (never a
colon, which the capture class excludes) until the capture reaches length 4.
Returns the captured text and the remaining input. -/
def trySO (l : List Char) : Option (List Char × List Char) :=
  match matchCI "sales".data l with
  | none => none
  | some r1 =>
    let r2 := r1.dropWhile pySpace
    match matchCI "order".data r2 with
    | none => none
    | some r3 =>
      let ws := r3.takeWhile wsColon
      let r4 := r3.dropWhile wsColon
      let run := r4.takeWhile capClass
      let rest5 := r4.dropWhile capClass
      if 4 ≤ run.length then
        some (run.take 12, run.drop 12 ++ rest5)
      else
        let g := 4 - run.length
        let back := (ws.reverse.take g).reverse
        if back.length = g && back.all pySpace then
          some (back ++ run, rest5)
        else none

/-- Scanner for the labeled "Sales Order" pattern over the whole text. -/
def soScan : Nat → List Char → List String
  | 0, _ => []
  | _, [] => []
  | fuel + 1, c :: rest =>
    match trySO (c :: rest) with
    | some pr => String.mk pr.1 :: soScan fuel pr.2
    | none => soScan fuel rest

/-- Final filter of `extract_candidates`: purely-digit strings of length 4–8
(`c.isdigit() and 4 <= len(c) <= 8`). -/
def keepCand (c : String) : Bool :=
  pyIsDigit c && decide (4 ≤ c.length) && decide (c.length ≤ 8)

/-- The concatenated, normalized, filtered pattern results, before
deduplication: `normal + fancy + so` filtered by `keepCand`. -/
def allCands (text : String) : List String :=
  (plainScan text.data.length text.data false ++
    (fancyScan text.data.length text.data).map normalize_digits ++
    (soScan text.data.length text.data).map normalize_digits).filter keepCand

/-- First-seen-order deduplication, exactly the `out`/`seen` loop of the
source (`seen` kept as a list; only membership is used). -/
def dedupSeen : List String → List String → List String
  | _, [] => []
  | seen, c :: cs =>
    if c ∈ seen then dedupSeen seen cs
    else c :: dedupSeen (c :: seen) cs

/-- `extract_candidates` from the source: three pattern families, separator
normalization, digit/length filter, first-seen deduplication. -/
def extract_candidates (text : String) : List String :=
  dedupSeen [] (allCands text)

/-! ### Tabular lookup builder (`read_excel_lookup`) -/

/-- Value of one spreadsheet cell as delivered by openpyxl with
`data_only=True`: blank, text, integer, or the NaN float.  Finite float cells
(which Python would stringify with a decimal point) are not modelled because
no claim depends on their textual form. -/
inductive PyVal where
  | none
  | str (s : String)
  | int (n : Int)
  | floatNaN
deriving DecidableEq

/-- Python `str(v)` on a cell value (`str(None) = "None"` included, although
the source always guards for `None` first). -/
def pyStrRaw : PyVal → String
  | PyVal.none => "None"
  | PyVal.str s => s
  | PyVal.int n => toString n
  | PyVal.floatNaN => "nan"

/-- The source's cell-to-text idiom: `"" if v is None else str(v).strip()`. -/
def pyCellStr : PyVal → String
  | PyVal.none => ""
  | v => pyTrim (pyStrRaw v)

/-- One spreadsheet cell by 1-based column index; out-of-range cells are blank
(openpyxl returns an empty cell). -/
def getCell (row : List PyVal) (col : Nat) : PyVal :=
  row.getD (col - 1) PyVal.none

/-- One row of the lookup, the tuple
`(zlecenie, ilosc palet, przewoznik, uwagi, dok)` of the source. -/
structure OrderRecord where
  z : String
  il : String
  pr : String
  uw : String
  dok : String
deriving DecidableEq

/-- Association-list insert with Python `dict` semantics: overwrite in place
if the key exists, else append. -/
def insertAssoc {β : Type} : List (String × β) → String → β → List (String × β)
  | [], k, v => [(k, v)]
  | (k0, v0) :: rest, k, v =>
    if k0 = k then (k, v) :: rest else (k0, v0) :: insertAssoc rest k v

/-- Association-list read, Python `dict.get`. -/
def lookupGet {β : Type} (l : List (String × β)) (k : String) : Option β :=
  (l.find? (fun pr => pr.1 = k)).map Prod.snd

/-- Python `set.add` modelled on a list keeping insertion order. -/
def insertSet (l : List String) (x : String) : List String :=
  if x ∈ l then l else l ++ [x]

/-- Delimiters of `re.split(r"[+;,/\s]+", z)`. -/
def isDelim (c : Char) : Bool :=
  c = '+' || c = ';' || c = ',' || c = '/' || pySpace c

/-- The split-and-strip of the order cell:
`[p.strip() for p in re.split(r"[+;,/\s]+", z) if p.strip()]`.
Splitting on every delimiter character and dropping empty pieces equals
splitting on delimiter runs. -/
def splitParts (z : String) : List String :=
  ((pySplitList isDelim z.data).map (fun cs => pyTrim (String.mk cs))).filter
    (fun p => p ≠ "")

/-- The bare numeric identifiers of one order cell: for each part keep its
digit characters; keep the result when it `isdigit()` (it is all digits by
construction, so exactly when non-empty). -/
def bareIds (z : String) : List String :=
  (splitParts z).filterMap (fun p =>
    if pyIsDigit (String.mk (p.data.filter Char.isDigit)) then
      some (String.mk (p.data.filter Char.isDigit))
    else Option.none)

/-- The body of the row loop: add every bare identifier of the row's order
cell to `all_nums` and point it at this row's record in `lookup`. -/
def processRow (acc : List (String × OrderRecord) × List String) (r : OrderRecord) :
    List (String × OrderRecord) × List String :=
  (bareIds r.z).foldl
    (fun ac p2 => (insertAssoc ac.1 p2 r, insertSet ac.2 p2)) acc

/-- The row loop of `read_excel_lookup` over already-extracted records. -/
def processRows (rows : List OrderRecord) :
    List (String × OrderRecord) × List String :=
  rows.foldl processRow ([], [])

/-- Header-key normalization: `str(v).strip().lower()`. -/
def headerKey (v : PyVal) : String :=
  pyLower (pyTrim (pyStrRaw v))

/-- One step of the header scan: skip blank cells, otherwise record the
normalized header text at its 1-based column (later columns overwrite). -/
def headerStep (acc : List (String × Nat)) (pr : Nat × PyVal) :
    List (String × Nat) :=
  match pr.2 with
  | PyVal.none => acc
  | v => insertAssoc acc (headerKey v) (pr.1 + 1)

/-- The `headers` dict: map from normalized header text to 1-based column,
skipping blank header cells; a later column with the same text overwrites. -/
def buildHeaders (hdr : List PyVal) : List (String × Nat) :=
  hdr.enum.foldl headerStep []

/-- Extraction of one data row into an `OrderRecord`, given the required
column indices and the optional ones
(`ws.cell(...).value if col else None`, then `"" if v is None else str(v).strip()`). -/
def extractRow (zc ic pc : Nat) (uc dc : Option Nat) (row : List PyVal) : OrderRecord :=
  { z := pyCellStr (getCell row zc)
    il := pyCellStr (getCell row ic)
    pr := pyCellStr (getCell row pc)
    uw := match uc with | some c => pyCellStr (getCell row c) | Option.none => ""
    dok := match dc with | some c => pyCellStr (getCell row c) | Option.none => "" }

/-- `read_excel_lookup` from the source.  `hdr` is row 1, `xrows` the data
rows (row 2 onward).  Required columns: ZLECENIE, ilość palet (three accepted
spellings), przewoźnik (two spellings); optional: UWAGI, DOK.  Raises
(`Except.error`) when a required column is missing.  The source's
`if len(mapped) == 5` unpacking in the caller is vestigial — records always
have five fields here. -/
def read_excel_lookup (hdr : List PyVal) (xrows : List (List PyVal)) :
    Except String (List (String × OrderRecord) × List String) :=
  let headers := buildHeaders hdr
  let z_col := lookupGet headers "zlecenie"
  let ilo_col := ((lookupGet headers "ilośc palet").orElse
    (fun _ => lookupGet headers "ilosc palet")).orElse
    (fun _ => lookupGet headers "ilość palet")
  let pr_col := (lookupGet headers "przewoźnik").orElse
    (fun _ => lookupGet headers "przewoznik")
  let uw_col := lookupGet headers "uwagi"
  let dok_col := lookupGet headers "dok"
  match z_col, ilo_col, pr_col with
  | some zc, some ic, some pc =>
    Except.ok (processRows (xrows.map (extractRow zc ic pc uw_col dok_col)))
  | _, _, _ =>
    Except.error "Excel musi mieć kolumny: ZLECENIE, ilość palet, przewoźnik (nagłówki w 1. wierszu)."

/-! ### Diacritics stripping -/

/-- `strip_diacritics` from the source.  Modelled from the NFD
decomposition + combining-mark removal as a direct letter map for the Polish
alphabet (plus the source's explicit `ł`/`Ł` fix); other characters pass
through unchanged.  No claim depends on non-Polish accented letters. -/
def stripChar (c : Char) : Char :=
  if c = 'ą' then 'a' else if c = 'ć' then 'c' else if c = 'ę' then 'e'
  else if c = 'ł' then 'l' else if c = 'ń' then 'n' else if c = 'ó' then 'o'
  else if c = 'ś' then 's' else if c = 'ź' then 'z' else if c = 'ż' then 'z'
  else if c = 'Ą' then 'A' else if c = 'Ć' then 'C' else if c = 'Ę' then 'E'
  else if c = 'Ł' then 'L' else if c = 'Ń' then 'N' else if c = 'Ó' then 'O'
  else if c = 'Ś' then 'S' else if c = 'Ź' then 'Z' else if c = 'Ż' then 'Z'
  else c

/-- `strip_diacritics` on a whole string. -/
def strip_diacritics (s : String) : String :=
  ⟨s.data.map stripChar⟩

/-! ### Group ordering (`key_sort`) -/

/-- Maximal digit runs of a string, `re.findall(r"\d+", k)`. -/
def digitRuns : Nat → List Char → List String
  | 0, _ => []
  | _, [] => []
  | fuel + 1, c :: rest =>
    if c.isDigit then
      String.mk (c :: rest.takeWhile Char.isDigit) ::
        digitRuns fuel (rest.dropWhile Char.isDigit)
    else
      digitRuns fuel rest

/-- Python `int` on a digit run (always succeeds on the runs produced here). -/
def toNatD (s : String) : Nat :=
  s.toNat?.getD 0

/-- `key_sort` from the source: `(group_flag, primary, k)` with
`group_flag = 1` iff some digit run of the key occurs (as a string) in the
Excel number set, `primary` the minimum integer in the key (sentinel `10^9`
when the key has no digits), and the key itself as tie-breaker. -/
def key_sort (excel_numbers : List String) (k : String) : Nat × Nat × String :=
  let nums_str := digitRuns k.data.length k.data
  let nums_int := nums_str.map toNatD
  let has_excel := nums_str.any (fun n => decide (n ∈ excel_numbers))
  let group_flag := if has_excel then 1 else 0
  let primary := match nums_int with
    | [] => 10 ^ 9
    | x :: xs => xs.foldl min x
  (group_flag, primary, k)

/-- Lexicographic order on the sort keys, exactly Python tuple comparison. -/
def tripLe (a b : Nat × Nat × String) : Prop :=
  a.1 < b.1 ∨ (a.1 = b.1 ∧ (a.2.1 < b.2.1 ∨ (a.2.1 = b.2.1 ∧ a.2.2 ≤ b.2.2)))

instance (a b : Nat × Nat × String) : Decidable (tripLe a b) := by
  unfold tripLe; infer_instance

/-- The group-key comparison induced by `key_sort`, used by the sort. -/
def keyRel (excel_numbers : List String) (a b : String) : Prop :=
  tripLe (key_sort excel_numbers a) (key_sort excel_numbers b)

instance (excel_numbers : List String) : DecidableRel (keyRel excel_numbers) := by
  intro a b; unfold keyRel; infer_instance

/-- Numeric comparison of identifier strings, the `key=lambda x: int(x)` of
the discrepancy sort. -/
def intLe (a b : String) : Prop :=
  toNatD a ≤ toNatD b

instance : DecidableRel intLe := by
  intro a b; unfold intLe; infer_instance

instance : IsTotal String intLe :=
  ⟨fun a b => Nat.le_total (toNatD a) (toNatD b)⟩

instance : IsTrans String intLe :=
  ⟨fun _ _ _ h1 h2 => Nat.le_trans h1 h2⟩

/-! ### Page geometry and layout composer

Physical units are PostScript points modelled as exact rationals;
`mm = 72 / 25.4` points, and the reportlab `A4` size is `(210*mm, 297*mm)`. -/

/-- One millimetre in points (`reportlab.lib.units.mm`). -/
def mmQ : ℚ := 360 / 127

/-- A4 page width in points. -/
def A4W : ℚ := 210 * mmQ

/-- A4 page height in points. -/
def A4H : ℚ := 297 * mmQ

/-- `SIDE_MARGIN_MM * mm`. -/
def margin_x : ℚ := 2 * mmQ

/-- `TOP_MARGIN_MM * mm`. -/
def top_margin : ℚ := 4 * mmQ

/-- `STAMP_BOTTOM_MM * mm`. -/
def bot_stamp : ℚ := 12 * mmQ

/-- `INTER_GAP_MM * mm`. -/
def gapQ : ℚ := 1 * mmQ

/-- Available printed width: `W - 2 * margin_x`. -/
def avail_w : ℚ := A4W - 2 * margin_x

/-- Available vertical region: `H - top_margin - bot_stamp`. -/
def avail_h : ℚ := A4H - top_margin - bot_stamp

/-- Python `str.splitlines` restricted to the line breaks occurring here. -/
def pySplitlines (s : String) : List String :=
  (pySplitList (fun c => c = '\n' || c = '\r') s.data).map String.mk

/-- `adaptive_crop_extra` from the source: extra crop margins
`(left, right, top, bottom)` when the page text is sparse
(at most `LOW_TEXT_LINES = 4` non-blank lines, or fewer than
`SHORT_TEXT_CHARS = 80` characters). -/
def adaptive_crop_extra (text : String) : ℚ × ℚ × ℚ × ℚ :=
  let lines := (pySplitlines text).filter (fun ln => pyTrim ln ≠ "")
  if lines.length ≤ 4 || text.length < 80 then
    (14 * mmQ, 14 * mmQ, 18 * mmQ, 28 * mmQ)
  else (0, 0, 0, 0)

/-- Geometry input of one source page: media-box width/height and cached text. -/
structure PageIn where
  w : ℚ
  h : ℚ
  text : String
deriving DecidableEq

/-- One tuple `(idx, cl, cr, ct, cb, s, dh)` of the batch pre-pass. -/
structure RawItem where
  idx : Nat
  cl : ℚ
  cr : ℚ
  ct : ℚ
  cb : ℚ
  s : ℚ
  dh : ℚ
deriving DecidableEq

/-- The batch pre-pass body for one page: base plus adaptive crops, cropped
size clamped to at least 10 points, scale to the available width, scaled
height. -/
def mkRawItem (idx : Nat) (p : PageIn) : RawItem :=
  let ex := adaptive_crop_extra p.text
  let cl := 6 * mmQ + ex.1
  let cr := 6 * mmQ + ex.2.1
  let ct := 8 * mmQ + ex.2.2.1
  let cb := 8 * mmQ + ex.2.2.2
  let cw := max 10 (p.w - cl - cr)
  let ch := max 10 (p.h - ct - cb)
  let s := avail_w / cw
  { idx := idx, cl := cl, cr := cr, ct := ct, cb := cb, s := s, dh := s * ch }

/-- `total_h`: sum of scaled heights plus `gap * max 0 (len - 1)`. -/
def batchTotalH (items : List RawItem) : ℚ :=
  items.foldl (fun acc it => acc + it.dh) 0 + gapQ * ((items.length - 1 : ℕ) : ℚ)

/-- `down = min(1.0, avail_h / total_h) if total_h > 0 else 1.0`. -/
def batchDown (items : List RawItem) : ℚ :=
  let t := batchTotalH items
  if 0 < t then min 1 (avail_h / t) else 1

/-- One placed item on the output sheet: final scale, final height, and the
translation target of the transformation chain. -/
structure PlacedItem where
  idx : Nat
  s : ℚ
  dh : ℚ
  x : ℚ
  y2 : ℚ
deriving DecidableEq

/-- The placement loop: multiply scale and height by the uniform down-scale,
stack top-down from `H - top_margin` with a fixed (unscaled) `gap` between
items. -/
def placeItems (down : ℚ) : List RawItem → ℚ → List PlacedItem
  | [], _ => []
  | it :: rest, y =>
    let s2 := it.s * down
    let dh2 := it.dh * down
    let x := margin_x - s2 * it.cl
    let y2 := y - dh2
    { idx := it.idx, s := s2, dh := dh2, x := x, y2 := y2 } ::
      placeItems down rest (y2 - gapQ)

/-- Vertical space consumed by the placed batch: the sum of the final scaled
heights plus the fixed inter-item gaps. -/
def occupiedHeight (items : List PlacedItem) : ℚ :=
  items.foldl (fun acc it => acc + it.dh) 0 + gapQ * ((items.length - 1 : ℕ) : ℚ)

/-! ### Batch slicing -/

/-- The slicing `for start in range(0, len(idxs), k): idxs[start:start+k]`.
Fuel-based so it is kernel-computable; `chunks` below instantiates the fuel
with the list length, which suffices whenever `0 < k` (Python raises on a
zero step, so `k = 0` never occurs — the slider minimum is 1). -/
def chunksF {α : Type} : Nat → Nat → List α → List (List α)
  | 0, _, _ => []
  | _, _, [] => []
  | fuel + 1, k, l => l.take k :: chunksF fuel k (l.drop k)

/-- A group's page list sliced into consecutive batches of at most `k` pages. -/
def chunks {α : Type} (k : Nat) (l : List α) : List (List α) :=
  chunksF l.length k l

/-- The batch-size sequence of `chunks` as a function of the list length. -/
def chunksLenF : Nat → Nat → Nat → List Nat
  | 0, _, _ => []
  | _, _, 0 => []
  | fuel + 1, k, n => min k n :: chunksLenF fuel k (n - k)

/-! ### Page classifier -/

/-- Rendered stamp metadata of one page:
`(header, footer, uwagi, dok)`. -/
abbrev Meta := String × String × String × String

/-- Classification state: the groups (insertion-ordered association list of
key to page indices), per-page metadata, and the two identifier statistics
sets. -/
structure ClassifyState where
  groups : List (String × List Nat)
  pageMeta : List (Nat × Meta)
  found : List String
  pdfOnly : List String
deriving DecidableEq

/-- `groups.setdefault(key, []).append(i)`. -/
def addToGroup (g : List (String × List Nat)) (k : String) (i : Nat) :
    List (String × List Nat) :=
  match g with
  | [] => [(k, [i])]
  | (k0, l) :: rest =>
    if k0 = k then (k0, l ++ [i]) :: rest
    else (k0, l) :: addToGroup rest k i

/-- The body of the page loop for page index `i`: extract candidates, update
the matched/unmatched statistics, pick the first candidate known to the Excel
set, resolve the record, choose group key and stamp metadata. -/
def classifyStep (lookup : List (String × OrderRecord)) (excel : List String)
    (texts : List String) (st : ClassifyState) (i : Nat) : ClassifyState :=
  let page_text := texts.getD i ""
  let cands := extract_candidates page_text
  let stats := cands.foldl
    (fun (pr : List String × List String) c =>
      if c ∈ excel then (insertSet pr.1 c, pr.2) else (pr.1, insertSet pr.2 c))
    (st.found, st.pdfOnly)
  let picked_excel := cands.find? (fun c => decide (c ∈ excel))
  let picked_any := picked_excel.orElse (fun _ => cands.head?)
  let mapped := match picked_excel with
    | some p => lookupGet lookup p
    | Option.none => Option.none
  let kmeta : String × Meta :=
    match mapped with
    | some r =>
      let header :=
        if r.z.data.contains '+' then "ZLECENIA (laczone): " ++ strip_diacritics r.z
        else "ZLECENIE: " ++ strip_diacritics r.z
      let footer := "ilosc palet: " ++ strip_diacritics r.il ++
        " | przewoznik: " ++ strip_diacritics r.pr
      (r.z, (header, footer, r.uw, r.dok))
    | Option.none =>
      match picked_any with
      | some p => (p, ("ZLECENIE: " ++ p, "(brak danych w Excelu)", "", ""))
      | Option.none =>
        ("_NO_ORDER_" ++ toString (i + 1),
          ("(nie znaleziono numeru zlecenia na tej stronie)", "", "", ""))
  { groups := addToGroup st.groups kmeta.1 i
    pageMeta := st.pageMeta ++ [(i, kmeta.2)]
    found := stats.1
    pdfOnly := stats.2 }

/-- The page loop: classify pages `1 .. len-1`, skipping the first page
(index 0) of the source document. -/
def classifyPages (texts : List String) (lookup : List (String × OrderRecord))
    (excel : List String) : ClassifyState :=
  (List.range' 1 (texts.length - 1)).foldl
    (classifyStep lookup excel texts) ⟨[], [], [], []⟩

/-! ### Summary page (`make_summary_page`) -/

/-- The fixed heading lines drawn at the top of the report page. -/
def summaryHeader : List String :=
  ["RAPORT POROWNANIA DANYCH", "ZLECENIA Z EXCELA NIEZNALEZIONE W PDF:",
    "ZLECENIE"]

/-- The entry loop of `make_summary_page`: draw each number, step the cursor
by 14 points, start a fresh page (cursor `H - 60`) when the cursor falls
below 60.  Pages are lists of drawn text lines, in draw order. -/
def summaryLoop (H : ℚ) : List String → ℚ → List String → List (List String)
  | [], _, acc => [acc]
  | n :: rest, y, acc =>
    let acc2 := acc ++ [n]
    let y2 := y - 14
    if y2 < 60 then acc2 :: summaryLoop H rest (H - 60) []
    else summaryLoop H rest y2 acc2

/-- `make_summary_page` from the source, as the list of drawn text lines per
output page.  After the three headers the cursor sits at `H - 122`; an empty
input draws the "(brak)" placeholder.  The second list argument is accepted
and ignored exactly as in the source.  The horizontal rule (a line graphic)
carries no text and is not modelled. -/
def make_summary_page (missing_from_pdf : List String)
    (missing_from_excel : List String) : List (List String) :=
  if missing_from_pdf.isEmpty then [summaryHeader ++ ["(brak)"]]
  else summaryLoop A4H missing_from_pdf (A4H - 122) summaryHeader

/-! ### Main pipeline (`annotate_pdf_web`) -/

/-- One composed output sheet: its group key, the batch of source page
indices, the placed items, and the overlay metadata taken from the batch's
first page. -/
structure ContentSheet where
  key : String
  batch : List Nat
  items : List PlacedItem
  overlay : Meta
deriving DecidableEq

/-- One page of the output document. -/
inductive OutPage where
  | content (sheet : ContentSheet)
  | report (lines : List String)
deriving DecidableEq

/-- Everything `annotate_pdf_web` computes, exposed for the claims: the
lookup data, classification state, ordered keys, composed sheets, the
discrepancy list, the report pages, and the final page sequence of the
output document. -/
structure AnnotateResult where
  lookup : List (String × OrderRecord)
  excelNumbers : List String
  groups : List (String × List Nat)
  pageMeta : List (Nat × Meta)
  foundInPdf : List String
  pdfOnly : List String
  orderedKeys : List String
  contentPages : List ContentSheet
  excelMissing : List String
  reportPages : List (List String)
  outputPages : List OutPage
deriving DecidableEq

/-- Layout and placement of one batch, as in the sheet loop of the source. -/
def composeBatch (texts : List String) (sizes : List (ℚ × ℚ))
    (pageMeta : List (Nat × Meta)) (gkey : String) (batch : List Nat) :
    ContentSheet :=
  let raw := batch.map (fun idx =>
    mkRawItem idx ⟨(sizes.getD idx (0, 0)).1, (sizes.getD idx (0, 0)).2,
      texts.getD idx ""⟩)
  let down := batchDown raw
  let items := placeItems down raw (A4H - top_margin)
  let overlay := ((pageMeta.find? (fun pm => pm.1 = batch.headD 0)).map
    Prod.snd).getD ("", "", "", "")
  ⟨gkey, batch, items, overlay⟩

/-- `annotate_pdf_web` from the source.  Inputs: header row and data rows of
the spreadsheet, the per-page extracted text and media-box sizes of the PDF,
and the per-sheet page limit.  The writer's page sequence is the content
sheets in ordered-key/batch order followed by the report pages (appended only
when the discrepancy list is non-empty). -/
def annotate_pdf_web (hdr : List PyVal) (xrows : List (List PyVal))
    (texts : List String) (sizes : List (ℚ × ℚ)) (max_per_sheet : Nat) :
    Except String AnnotateResult :=
  match read_excel_lookup hdr xrows with
  | Except.error e => Except.error e
  | Except.ok (lookup, excel_numbers) =>
    let st := classifyPages texts lookup excel_numbers
    let ordered_keys :=
      List.insertionSort (keyRel excel_numbers) (st.groups.map Prod.fst)
    let contentPages := ordered_keys.flatMap (fun gkey =>
      let idxs := ((st.groups.find? (fun pr => pr.1 = gkey)).map Prod.snd).getD []
      (chunks max_per_sheet idxs).map (composeBatch texts sizes st.pageMeta gkey))
    let excel_missing :=
      if excel_numbers.isEmpty then []
      else List.insertionSort intLe
        (excel_numbers.filter (fun x => decide (x ∉ st.found)))
    let reportPages :=
      if excel_missing.isEmpty then []
      else make_summary_page excel_missing []
    Except.ok
      { lookup := lookup
        excelNumbers := excel_numbers
        groups := st.groups
        pageMeta := st.pageMeta
        foundInPdf := st.found
        pdfOnly := st.pdfOnly
        orderedKeys := ordered_keys
        contentPages := contentPages
        excelMissing := excel_missing
        reportPages := reportPages
        outputPages := contentPages.map OutPage.content ++
          reportPages.map OutPage.report }

/-- The partition invariant of the classification groups with page indices
below `bound`: group keys are distinct, the groups cover exactly the page
indices `1 .. bound-1`, no group repeats a page, and distinct groups are
disjoint. -/
def GoodGroups (g : List (String × List Nat)) (bound : Nat) : Prop :=
  (g.map Prod.fst).Nodup ∧
  (∀ j, (∃ pr ∈ g, j ∈ pr.2) ↔ (1 ≤ j ∧ j < bound)) ∧
  (∀ pr ∈ g, pr.2.Nodup) ∧
  g.Pairwise (fun a b => ∀ j, j ∈ a.2 → j ∉ b.2)

/-- A logical field with accepted spelling `name` is present in the header
row: some non-blank header cell normalizes (stringified, trimmed,
lower-cased) to `name`. -/
def hdrHas (hdr : List PyVal) (name : String) : Prop :=
  ∃ v ∈ hdr, v ≠ PyVal.none ∧ headerKey v = name

instance (hdr : List PyVal) (name : String) : Decidable (hdrHas hdr name) := by
  unfold hdrHas; infer_instance

/-- Concrete spreadsheet header used by witnesses. -/
def hdrW6 : List PyVal :=
  [PyVal.str "zlecenie", PyVal.str "ilosc palet", PyVal.str "przewoznik"]

/-- Concrete spreadsheet rows used by witnesses: order 1234 appears in the
PDF below, order 7777 does not. -/
def rowsW6 : List (List PyVal) :=
  [[PyVal.str "1234", PyVal.int 5, PyVal.str "ACME"],
    [PyVal.str "7777", PyVal.int 2, PyVal.str "DHL"]]

/-- A blank result, used only as the default of a total projection. -/
def emptyAnnotate : AnnotateResult :=
  ⟨[], [], [], [], [], [], [], [], [], [], []⟩

/-- The pipeline result on the concrete witness input: a two-page PDF whose
second page reads "1234". -/
def annW6 : AnnotateResult :=
  ((annotate_pdf_web hdrW6 rowsW6 ["", "1234"] [(A4W, A4H), (A4W, A4H)] 3).toOption).getD
    emptyAnnotate

/-! ### Deduplication lemmas and claim C3 -/

theorem mem_dedupSeen (x : String) :
    ∀ (cs seen : List String), x ∈ dedupSeen seen cs ↔ x ∈ cs ∧ x ∉ seen := by
  intro cs
  induction cs with
  | nil => intro seen; simp [dedupSeen]
  | cons c cs ih =>
    intro seen
    by_cases hc : c ∈ seen
    · simp only [dedupSeen, if_pos hc, ih, List.mem_cons]
      constructor
      · rintro ⟨hx, hns⟩; exact ⟨Or.inr hx, hns⟩
      · rintro ⟨hx | hx, hns⟩
        · exact absurd (hx ▸ hc) hns
        · exact ⟨hx, hns⟩
    · simp only [dedupSeen, if_neg hc, List.mem_cons, ih]
      constructor
      · rintro (rfl | ⟨hx, hns⟩)
        · exact ⟨Or.inl rfl, hc⟩
        · exact ⟨Or.inr hx, fun hxs => hns (Or.inr hxs)⟩
      · rintro ⟨hxor, hns⟩
        by_cases hxc : x = c
        · exact Or.inl hxc
        · rcases hxor with rfl | hx
          · exact Or.inl rfl
          · refine Or.inr ⟨hx, fun hxs => ?_⟩
            rcases hxs with rfl | hxs
            · exact hxc rfl
            · exact hns hxs

theorem nodup_dedupSeen :
    ∀ (cs seen : List String), (dedupSeen seen cs).Nodup := by
  intro cs
  induction cs with
  | nil => intro seen; simp [dedupSeen]
  | cons c cs ih =>
    intro seen
    by_cases hc : c ∈ seen
    · simpa [dedupSeen, if_pos hc] using ih seen
    · rw [dedupSeen, if_neg hc]
      refine List.nodup_cons.mpr ⟨fun hmem => ?_, ih (c :: seen)⟩
      exact ((mem_dedupSeen c cs (c :: seen)).mp hmem).2 (by simp)

theorem sublist_dedupSeen :
    ∀ (cs seen : List String), (dedupSeen seen cs).Sublist cs := by
  intro cs
  induction cs with
  | nil => intro seen; simp [dedupSeen]
  | cons c cs ih =>
    intro seen
    by_cases hc : c ∈ seen
    · rw [dedupSeen, if_pos hc]
      exact (ih seen).cons c
    · rw [dedupSeen, if_neg hc]
      exact (ih (c :: seen)).cons₂ c

theorem pairwise_dedupSeen :
    ∀ (cs seen : List String),
      (dedupSeen seen cs).Pairwise
        (fun a b => List.indexOf a cs < List.indexOf b cs) := by
  intro cs
  induction cs with
  | nil => intro seen; simp [dedupSeen]
  | cons c cs ih =>
    intro seen
    by_cases hc : c ∈ seen
    · rw [dedupSeen, if_pos hc]
      refine (ih seen).imp_of_mem ?_
      intro a b ha hb hab
      have ha' := (mem_dedupSeen a cs seen).mp ha
      have hb' := (mem_dedupSeen b cs seen).mp hb
      have hac : c ≠ a := fun h => ha'.2 (h ▸ hc)
      have hbc : c ≠ b := fun h => hb'.2 (h ▸ hc)
      rw [List.indexOf_cons_ne _ hac, List.indexOf_cons_ne _ hbc]
      exact Nat.succ_lt_succ hab
    · rw [dedupSeen, if_neg hc]
      refine List.pairwise_cons.mpr ⟨?_, ?_⟩
      · intro b hb
        have hb' := (mem_dedupSeen b cs (c :: seen)).mp hb
        have hbc : c ≠ b := fun h => hb'.2 (h ▸ List.mem_cons_self c seen)
        rw [List.indexOf_cons_self, List.indexOf_cons_ne _ hbc]
        exact Nat.succ_pos _
      · refine (ih (c :: seen)).imp_of_mem ?_
        intro a b ha hb hab
        have ha' := (mem_dedupSeen a cs (c :: seen)).mp ha
        have hb' := (mem_dedupSeen b cs (c :: seen)).mp hb
        have hac : c ≠ a := fun h => ha'.2 (h ▸ List.mem_cons_self c seen)
        have hbc : c ≠ b := fun h => hb'.2 (h ▸ List.mem_cons_self c seen)
        rw [List.indexOf_cons_ne _ hac, List.indexOf_cons_ne _ hbc]
        exact Nat.succ_lt_succ hab

/-- Claim C3: for every page text, `extract_candidates` returns a list with
no duplicate strings, preserving the first-seen order of the concatenated
pattern results (`allCands`: plain digit runs, then spaced/punctuated runs,
then labeled "Sales Order" runs, filtered), and every returned element is a
purely-digit string of length 4 to 8. -/
theorem extract_candidates_spec (text : String) :
    (extract_candidates text).Nodup ∧
    (∀ c ∈ extract_candidates text,
      pyIsDigit c = true ∧ 4 ≤ c.length ∧ c.length ≤ 8) ∧
    (extract_candidates text).Sublist (allCands text) ∧
    (∀ c, c ∈ extract_candidates text ↔ c ∈ allCands text) ∧
    (extract_candidates text).Pairwise
      (fun a b => List.indexOf a (allCands text) < List.indexOf b (allCands text)) := by
  have hmem : ∀ c, c ∈ extract_candidates text ↔ c ∈ allCands text := by
    intro c
    rw [extract_candidates, mem_dedupSeen]
    simp
  refine ⟨nodup_dedupSeen _ _, ?_, sublist_dedupSeen _ _, hmem, pairwise_dedupSeen _ _⟩
  intro c hc
  have hcall : c ∈ allCands text := (hmem c).mp hc
  have hkeep : keepCand c = true := (List.mem_filter.mp hcall).2
  have h1 : pyIsDigit c = true := by
    have := (Bool.and_eq_true _ _).mp hkeep
    exact ((Bool.and_eq_true _ _).mp this.1).1
  have h2 : 4 ≤ c.length := by
    have := (Bool.and_eq_true _ _).mp hkeep
    exact of_decide_eq_true ((Bool.and_eq_true _ _).mp this.1).2
  have h3 : c.length ≤ 8 := by
    have := (Bool.and_eq_true _ _).mp hkeep
    exact of_decide_eq_true this.2
  exact ⟨h1, h2, h3⟩

/-- Witness for C3 at a concrete page text containing duplicated and labeled
tokens. -/
theorem extract_candidates_spec_witness :
    (extract_candidates "Sales Order: 77889 oraz 1234 i 1234").Nodup ∧
    pyIsDigit "77889" = true ∧ 4 ≤ ("77889" : String).length ∧
    ("77889" : String).length ≤ 8 := by
  have h := extract_candidates_spec "Sales Order: 77889 oraz 1234 i 1234"
  refine ⟨h.1, h.2.1 "77889" ?_⟩
  decide

/-! ### Batch slicing lemmas and claims C8, C2 -/

theorem chunksF_cons {α : Type} (fuel k : Nat) (x : α) (xs : List α) :
    chunksF (fuel + 1) k (x :: xs) =
      (x :: xs).take k :: chunksF fuel k ((x :: xs).drop k) := rfl

theorem chunksF_nil {α : Type} (fuel k : Nat) :
    chunksF fuel k ([] : List α) = [] := by
  cases fuel <;> rfl

theorem chunksF_flatten {α : Type} (k : Nat) (hk : 0 < k) :
    ∀ (fuel : Nat) (l : List α), l.length ≤ fuel →
      (chunksF fuel k l).flatten = l := by
  intro fuel
  induction fuel with
  | zero =>
    intro l hl
    have h0 : l = [] := List.length_eq_zero.mp (Nat.le_zero.mp hl)
    subst h0; rfl
  | succ fuel ih =>
    intro l hl
    cases l with
    | nil => rfl
    | cons x xs =>
      rw [chunksF_cons, List.flatten_cons, ih]
      · exact List.take_append_drop k (x :: xs)
      · simp only [List.length_drop, List.length_cons]
        simp only [List.length_cons] at hl
        omega

theorem chunksF_mem {α : Type} (k : Nat) (hk : 0 < k) :
    ∀ (fuel : Nat) (l : List α) (c : List α), l.length ≤ fuel →
      c ∈ chunksF fuel k l → c ≠ [] ∧ c.length ≤ k := by
  intro fuel
  induction fuel with
  | zero =>
    intro l c hl hc
    have h0 : l = [] := List.length_eq_zero.mp (Nat.le_zero.mp hl)
    subst h0
    rw [chunksF_nil] at hc
    exact (List.not_mem_nil c hc).elim
  | succ fuel ih =>
    intro l c hl hc
    cases l with
    | nil =>
      rw [chunksF_nil] at hc
      exact (List.not_mem_nil c hc).elim
    | cons x xs =>
      rw [chunksF_cons] at hc
      rcases List.mem_cons.mp hc with rfl | hc
      · constructor
        · cases k with
          | zero => exact (Nat.lt_irrefl 0 hk).elim
          | succ k => simp
        · rw [List.length_take]; exact min_le_left _ _
      · refine ih _ c ?_ hc
        simp only [List.length_drop, List.length_cons]
        simp only [List.length_cons] at hl
        omega

theorem chunksF_map_length {α : Type} (k : Nat) :
    ∀ (fuel : Nat) (l : List α),
      (chunksF fuel k l).map List.length = chunksLenF fuel k l.length := by
  intro fuel
  induction fuel with
  | zero => intro l; cases l <;> rfl
  | succ fuel ih =>
    intro l
    cases l with
    | nil => rfl
    | cons x xs =>
      have heq2 : chunksLenF (fuel + 1) k (x :: xs).length =
          min k (x :: xs).length :: chunksLenF fuel k ((x :: xs).length - k) := by
        simp only [List.length_cons]
        rfl
      rw [chunksF_cons, heq2, List.map_cons, ih, List.length_drop]
      congr 1
      simp [List.length_take]

theorem chunksF_ne_nil {α : Type} (k : Nat) (fuel : Nat) (l : List α)
    (hl : l.length ≤ fuel) : chunksF fuel k l = [] ↔ l = [] := by
  cases fuel with
  | zero =>
    have h0 : l = [] := List.length_eq_zero.mp (Nat.le_zero.mp hl)
    subst h0; simp [chunksF_nil]
  | succ fuel =>
    cases l with
    | nil => simp [chunksF_nil]
    | cons x xs => simp [chunksF_cons]

theorem chunksF_dropLast {α : Type} (k : Nat) (hk : 0 < k) :
    ∀ (fuel : Nat) (l : List α) (c : List α), l.length ≤ fuel →
      c ∈ (chunksF fuel k l).dropLast → c.length = k := by
  intro fuel
  induction fuel with
  | zero =>
    intro l c hl hc
    have h0 : l = [] := List.length_eq_zero.mp (Nat.le_zero.mp hl)
    subst h0
    rw [chunksF_nil] at hc
    exact (List.not_mem_nil c hc).elim
  | succ fuel ih =>
    intro l c hl hc
    cases l with
    | nil =>
      rw [chunksF_nil] at hc
      exact (List.not_mem_nil c hc).elim
    | cons x xs =>
      rw [chunksF_cons] at hc
      have hdl : (List.drop k (x :: xs)).length ≤ fuel := by
        simp only [List.length_drop, List.length_cons]
        simp only [List.length_cons] at hl
        omega
      rcases hrest : chunksF fuel k (List.drop k (x :: xs)) with _ | ⟨r, rs⟩
      · rw [hrest] at hc
        simp at hc
      · rw [hrest] at hc
        rw [List.dropLast_cons₂] at hc
        rcases List.mem_cons.mp hc with rfl | hc
        · have hne : List.drop k (x :: xs) ≠ [] := by
            intro hnil
            rw [hnil, chunksF_nil] at hrest
            exact List.cons_ne_nil r rs hrest.symm
          have hlen : k < (x :: xs).length := by
            by_contra hcon
            push_neg at hcon
            exact hne (List.drop_eq_nil_of_le hcon)
          rw [List.length_take]
          omega
        · exact ih (List.drop k (x :: xs)) c hdl (hrest ▸ hc)

/-- Claim C8: for every positive per-sheet limit, a group's page list is
sliced into consecutive chunks in original order (their concatenation is the
original list), every chunk is non-empty with at most `k` pages, every chunk
except possibly the last has exactly `k` pages, each chunk becomes exactly
one output sheet (the composed sheet's batch is the chunk), and a 7-page
group with limit 3 yields batch sizes 3, 3, 1. -/
theorem chunks_slicing (k : Nat) (l : List Nat) (hk : 0 < k) :
    (chunks k l).flatten = l ∧
    (∀ c ∈ chunks k l, c ≠ [] ∧ c.length ≤ k) ∧
    (∀ c ∈ (chunks k l).dropLast, c.length = k) ∧
    (∀ (texts : List String) (sizes : List (ℚ × ℚ)) (pm : List (Nat × Meta))
      (g : String),
      ((chunks k l).map (composeBatch texts sizes pm g)).map ContentSheet.batch =
        chunks k l) ∧
    (l.length = 7 → k = 3 → (chunks k l).map List.length = [3, 3, 1]) := by
  refine ⟨chunksF_flatten k hk l.length l le_rfl,
    fun c hc => chunksF_mem k hk l.length l c le_rfl hc,
    fun c hc => chunksF_dropLast k hk l.length l c le_rfl hc, ?_, ?_⟩
  · intro texts sizes pm g
    rw [List.map_map]
    have : ContentSheet.batch ∘ composeBatch texts sizes pm g = id := by
      funext b; rfl
    rw [this, List.map_id]
  · intro h7 hk3
    subst hk3
    rw [chunks, chunksF_map_length, h7]
    decide

/-- Witness for C8 on a concrete 7-page group with limit 3. -/
theorem chunks_slicing_witness :
    (chunks 3 [10, 11, 12, 13, 14, 15, 16]).map List.length = [3, 3, 1] ∧
    (chunks 3 [10, 11, 12, 13, 14, 15, 16]).flatten =
      [10, 11, 12, 13, 14, 15, 16] := by
  have h := chunks_slicing 3 [10, 11, 12, 13, 14, 15, 16] (by decide)
  exact ⟨h.2.2.2.2 rfl rfl, h.1⟩

/-- Claim C2 (code bug): on a batch of two sparse A4 pages the uniform
down-scale factor is strictly below 1, no item is dropped, and yet the sum of
the final scaled heights plus the fixed inter-item gap strictly exceeds the
available vertical region — the down-scale is computed from a total that
includes the gaps but is applied only to the item heights, so the placed
batch overflows into the bottom stamp region by `gap * (1 - down)`. -/
theorem layout_gap_overflow :
    (placeItems (batchDown [mkRawItem 1 ⟨A4W, A4H, "1234"⟩, mkRawItem 2 ⟨A4W, A4H, "1234"⟩])
        [mkRawItem 1 ⟨A4W, A4H, "1234"⟩, mkRawItem 2 ⟨A4W, A4H, "1234"⟩]
        (A4H - top_margin)).length = 2 ∧
    batchDown [mkRawItem 1 ⟨A4W, A4H, "1234"⟩, mkRawItem 2 ⟨A4W, A4H, "1234"⟩] < 1 ∧
    avail_h <
      occupiedHeight
        (placeItems (batchDown [mkRawItem 1 ⟨A4W, A4H, "1234"⟩, mkRawItem 2 ⟨A4W, A4H, "1234"⟩])
          [mkRawItem 1 ⟨A4W, A4H, "1234"⟩, mkRawItem 2 ⟨A4W, A4H, "1234"⟩]
          (A4H - top_margin)) := by
  refine ⟨rfl, ?_, ?_⟩
  · simp only [batchDown, batchTotalH, mkRawItem,
      show adaptive_crop_extra "1234" = (14 * mmQ, 14 * mmQ, 18 * mmQ, 28 * mmQ) from rfl,
      List.foldl_cons, List.foldl_nil, List.length_cons, List.length_nil,
      avail_w, avail_h, A4W, A4H, mmQ, margin_x, top_margin, bot_stamp, gapQ,
      max_def, min_def]
    norm_num
  · simp only [occupiedHeight, placeItems, batchDown, batchTotalH, mkRawItem,
      show adaptive_crop_extra "1234" = (14 * mmQ, 14 * mmQ, 18 * mmQ, 28 * mmQ) from rfl,
      List.foldl_cons, List.foldl_nil, List.length_cons, List.length_nil,
      avail_w, avail_h, A4W, A4H, mmQ, margin_x, top_margin, bot_stamp, gapQ,
      max_def, min_def]
    norm_num

/-! ### Group ordering lemmas and claim C7 -/

theorem tripLe_total (x y : Nat × Nat × String) : tripLe x y ∨ tripLe y x := by
  obtain ⟨x1, x2, x3⟩ := x
  obtain ⟨y1, y2, y3⟩ := y
  unfold tripLe
  simp only
  rcases Nat.lt_trichotomy x1 y1 with h1 | h1 | h1
  · exact Or.inl (Or.inl h1)
  · rcases Nat.lt_trichotomy x2 y2 with h2 | h2 | h2
    · exact Or.inl (Or.inr ⟨h1, Or.inl h2⟩)
    · rcases le_total x3 y3 with h3 | h3
      · exact Or.inl (Or.inr ⟨h1, Or.inr ⟨h2, h3⟩⟩)
      · exact Or.inr (Or.inr ⟨h1.symm, Or.inr ⟨h2.symm, h3⟩⟩)
    · exact Or.inr (Or.inr ⟨h1.symm, Or.inl h2⟩)
  · exact Or.inr (Or.inl h1)

theorem tripLe_antisymm {x y : Nat × Nat × String} (hxy : tripLe x y)
    (hyx : tripLe y x) : x = y := by
  obtain ⟨x1, x2, x3⟩ := x
  obtain ⟨y1, y2, y3⟩ := y
  unfold tripLe at hxy hyx
  simp only at hxy hyx
  rcases hxy with h1 | ⟨h1, h2⟩
  · rcases hyx with h1' | ⟨h1', _⟩
    · exact absurd h1 (Nat.lt_asymm h1')
    · omega
  · rcases hyx with h1' | ⟨h1', h2'⟩
    · omega
    · rcases h2 with h2 | ⟨h2, h3⟩
      · rcases h2' with h2' | ⟨h2', _⟩
        · exact absurd h2 (Nat.lt_asymm h2')
        · omega
      · rcases h2' with h2' | ⟨h2', h3'⟩
        · omega
        · have : x3 = y3 := le_antisymm h3 h3'
          subst this; subst h1; subst h2; rfl

theorem tripLe_trans {x y z : Nat × Nat × String} (hxy : tripLe x y)
    (hyz : tripLe y z) : tripLe x z := by
  obtain ⟨x1, x2, x3⟩ := x
  obtain ⟨y1, y2, y3⟩ := y
  obtain ⟨z1, z2, z3⟩ := z
  unfold tripLe at hxy hyz ⊢
  simp only at hxy hyz ⊢
  rcases hxy with h1 | ⟨h1, h2⟩
  · rcases hyz with h1' | ⟨h1', _⟩
    · exact Or.inl (Nat.lt_trans h1 h1')
    · exact Or.inl (h1' ▸ h1)
  · rcases hyz with h1' | ⟨h1', h2'⟩
    · exact Or.inl (h1 ▸ h1')
    · refine Or.inr ⟨h1.trans h1', ?_⟩
      rcases h2 with h2 | ⟨h2, h3⟩
      · rcases h2' with h2' | ⟨h2', _⟩
        · exact Or.inl (Nat.lt_trans h2 h2')
        · exact Or.inl (h2' ▸ h2)
      · rcases h2' with h2' | ⟨h2', h3'⟩
        · exact Or.inl (h2 ▸ h2')
        · exact Or.inr ⟨h2.trans h2', h3.trans h3'⟩

/-- Claim C7: the `key_sort` key function induces a total order on group
keys: the comparison `tripLe` of sort keys is total, mutually comparable keys
have equal sort keys, the key function is injective (distinct keys never
compare equal, making the sort stable regardless of tie-breaking), and the
comparison is transitive. -/
theorem key_sort_total_order (ex : List String) (a b c : String) :
    (tripLe (key_sort ex a) (key_sort ex b) ∨ tripLe (key_sort ex b) (key_sort ex a)) ∧
    (tripLe (key_sort ex a) (key_sort ex b) → tripLe (key_sort ex b) (key_sort ex a) →
      key_sort ex a = key_sort ex b) ∧
    (key_sort ex a = key_sort ex b → a = b) ∧
    (tripLe (key_sort ex a) (key_sort ex b) → tripLe (key_sort ex b) (key_sort ex c) →
      tripLe (key_sort ex a) (key_sort ex c)) := by
  refine ⟨tripLe_total _ _, fun h h' => tripLe_antisymm h h', fun h => ?_,
    fun h h' => tripLe_trans h h'⟩
  have := congrArg (fun t => t.2.2) h
  simpa [key_sort] using this

/-- Witness for C7 on concrete keys: an Excel-matched key sorts after an
unmatched one, and mutual comparability forces equality of keys. -/
theorem key_sort_total_order_witness :
    (tripLe (key_sort ["1234"] "77+88") (key_sort ["1234"] "999+1234") ∨
      tripLe (key_sort ["1234"] "999+1234") (key_sort ["1234"] "77+88")) ∧
    ("abc" : String) = "abc" := by
  have h := key_sort_total_order ["1234"] "77+88" "999+1234" "x"
  have h2 := key_sort_total_order ["1234"] "abc" "abc" "x"
  exact ⟨h.1, h2.2.2.1 rfl⟩

/-! ### Lookup builder lemmas and claims C4, C5, C10 -/

theorem lookupGet_insertAssoc {β : Type} (l : List (String × β)) (k k' : String)
    (v : β) :
    lookupGet (insertAssoc l k v) k' = if k' = k then some v else lookupGet l k' := by
  induction l with
  | nil =>
    by_cases h : k' = k
    · subst h; simp [insertAssoc, lookupGet]
    · have h' : ¬k = k' := fun hh => h hh.symm
      simp [insertAssoc, lookupGet, List.find?, h, h']
  | cons pr rest ih =>
    obtain ⟨k0, v0⟩ := pr
    by_cases h0 : k0 = k
    · subst h0
      by_cases h : k' = k0
      · subst h; simp [insertAssoc, lookupGet, List.find?]
      · have h' : ¬k0 = k' := fun hh => h hh.symm
        simp [insertAssoc, lookupGet, List.find?, h, h']
    · by_cases h : k' = k0
      · subst h
        simp [insertAssoc, lookupGet, List.find?, h0]
      · have h' : ¬k0 = k' := fun hh => h hh.symm
        have step : lookupGet ((k0, v0) :: insertAssoc rest k v) k' =
            lookupGet (insertAssoc rest k v) k' := by
          simp [lookupGet, List.find?, h']
        have step2 : lookupGet ((k0, v0) :: rest) k' = lookupGet rest k' := by
          simp [lookupGet, List.find?, h']
        simp only [insertAssoc, if_neg h0]
        rw [step, step2, ih]

theorem lookupGet_processRow (acc : List (String × OrderRecord) × List String)
    (r : OrderRecord) (p : String) :
    lookupGet (processRow acc r).1 p =
      if p ∈ bareIds r.z then some r else lookupGet acc.1 p := by
  unfold processRow
  generalize bareIds r.z = ids
  induction ids generalizing acc with
  | nil => simp
  | cons q ids ih =>
    rw [List.foldl_cons, ih]
    by_cases hq : p = q
    · subst hq
      by_cases hp : p ∈ ids <;> simp [hp, lookupGet_insertAssoc]
    · by_cases hp : p ∈ ids <;>
        simp [hp, hq, lookupGet_insertAssoc, List.mem_cons]

theorem mem_of_getLast? {α : Type} {l : List α} {a : α}
    (h : l.getLast? = some a) : a ∈ l := by
  induction l using List.reverseRecOn with
  | nil => simp at h
  | append_singleton l x ih =>
    rw [List.getLast?_concat] at h
    cases h
    exact List.mem_append_right l (List.mem_cons_self _ _)

theorem lookupGet_foldl_processRow
    (rows : List OrderRecord) (p : String) :
    ∀ acc : List (String × OrderRecord) × List String,
      lookupGet (rows.foldl processRow acc).1 p =
        ((rows.filter (fun r => decide (p ∈ bareIds r.z))).getLast?).orElse
          (fun _ => lookupGet acc.1 p) := by
  induction rows using List.reverseRecOn with
  | nil => intro acc; simp
  | append_singleton rows r ih =>
    intro acc
    rw [List.foldl_concat, lookupGet_processRow, List.filter_append]
    by_cases hp : p ∈ bareIds r.z
    · simp [hp, List.getLast?_concat]
    · simp [hp, ih]

theorem lookupGet_processRows (rows : List OrderRecord) (p : String) :
    lookupGet (processRows rows).1 p =
      (rows.filter (fun r => decide (p ∈ bareIds r.z))).getLast? := by
  rw [processRows, lookupGet_foldl_processRow]
  cases (rows.filter (fun r => decide (p ∈ bareIds r.z))).getLast? with
  | none => simp [lookupGet]
  | some r => simp

/-- Claim C4: in the finished lookup every bare identifier resolves to the
record of the last spreadsheet row whose order cell produced it (last write
wins, no dedup/merge); in particular, when one row is the last producer of
two bare identifiers (a multi-valued cell such as "123+456"), both resolve to
that same record, whose displayed order key is the original combined cell
string. -/
theorem lookup_last_write_wins (rows : List OrderRecord) (p : String) :
    lookupGet (processRows rows).1 p =
      (rows.filter (fun r => decide (p ∈ bareIds r.z))).getLast? ∧
    ∀ (r : OrderRecord) (q : String),
      (rows.filter (fun r2 => decide (p ∈ bareIds r2.z))).getLast? = some r →
      (rows.filter (fun r2 => decide (q ∈ bareIds r2.z))).getLast? = some r →
      lookupGet (processRows rows).1 p = some r ∧
      lookupGet (processRows rows).1 q = some r := by
  refine ⟨lookupGet_processRows rows p, fun r q hp hq => ?_⟩
  rw [lookupGet_processRows rows p, lookupGet_processRows rows q]
  exact ⟨hp, hq⟩

/-- Witness for C4: a single row "123+456" resolves both identifiers to the
same record with the combined display key, and on duplicate rows the later
row wins. -/
theorem lookup_last_write_wins_witness :
    lookupGet (processRows [⟨"123+456", "5", "ACME", "", ""⟩]).1 "123" =
      some ⟨"123+456", "5", "ACME", "", ""⟩ ∧
    lookupGet (processRows [⟨"123+456", "5", "ACME", "", ""⟩]).1 "456" =
      some ⟨"123+456", "5", "ACME", "", ""⟩ ∧
    lookupGet (processRows [⟨"111", "1", "A", "", ""⟩, ⟨"111", "2", "B", "", ""⟩]).1
      "111" = some ⟨"111", "2", "B", "", ""⟩ := by
  refine ⟨?_, ?_, ?_⟩
  · exact ((lookup_last_write_wins [⟨"123+456", "5", "ACME", "", ""⟩] "123").2
      ⟨"123+456", "5", "ACME", "", ""⟩ "123" (by decide) (by decide)).1
  · exact ((lookup_last_write_wins [⟨"123+456", "5", "ACME", "", ""⟩] "123").2
      ⟨"123+456", "5", "ACME", "", ""⟩ "456" (by decide) (by decide)).2
  · exact (lookup_last_write_wins
      [⟨"111", "1", "A", "", ""⟩, ⟨"111", "2", "B", "", ""⟩] "111").1.trans (by decide)

/-- Claim C5 (counterexample): the pallet-count cell is not coerced to an
integer.  A non-numeric text cell "abc" is stored verbatim and a NaN float
cell is stored as the string "nan" — neither yields 0 as the claim states. -/
theorem pallet_not_coerced :
    (read_excel_lookup
        [PyVal.str "zlecenie", PyVal.str "ilosc palet", PyVal.str "przewoznik"]
        [[PyVal.str "1234", PyVal.str "abc", PyVal.str "X"],
          [PyVal.str "5678", PyVal.floatNaN, PyVal.str "Y"]]).map
      (fun pr => (lookupGet pr.1 "1234", lookupGet pr.1 "5678")) =
      Except.ok (some ⟨"1234", "abc", "X", "", ""⟩, some ⟨"5678", "nan", "Y", "", ""⟩) ∧
    ("abc" : String) ≠ "0" ∧ ("nan" : String) ≠ "0" := by
  refine ⟨rfl, by decide, by decide⟩

/-- Claim C5 (amended): the pallet-count value stored in the record is the
cell's stringified, whitespace-trimmed text: blank cells yield the empty
string, text cells their trimmed text, a NaN float the string "nan"; no
integer coercion is performed. -/
theorem pallet_stored_as_text (zc ic pc : Nat) (uc dc : Option Nat)
    (xrows : List (List PyVal)) (p : String) (r : OrderRecord)
    (h : lookupGet (processRows (xrows.map (extractRow zc ic pc uc dc))).1 p =
      some r) :
    (∃ row ∈ xrows, r = extractRow zc ic pc uc dc row ∧
      r.il = pyCellStr (getCell row ic)) ∧
    pyCellStr PyVal.floatNaN = "nan" ∧ pyCellStr PyVal.none = "" ∧
    (∀ t : String, pyCellStr (PyVal.str t) = pyTrim t) := by
  refine ⟨?_, rfl, rfl, fun t => rfl⟩
  rw [lookupGet_processRows (xrows.map (extractRow zc ic pc uc dc)) p] at h
  have hmem := mem_of_getLast? h
  have hmem2 := (List.mem_filter.mp hmem).1
  obtain ⟨row, hrow, hrE⟩ := List.mem_map.mp hmem2
  exact ⟨row, hrow, hrE.symm, by rw [← hrE]; rfl⟩

/-- Witness for C5's amended statement on a concrete spreadsheet row with a
text pallet cell. -/
theorem pallet_stored_as_text_witness :
    pyCellStr PyVal.floatNaN = "nan" ∧
    (∃ row ∈ [[PyVal.str "1234", PyVal.str " abc ", PyVal.str "X"]],
      (⟨"1234", "abc", "X", "", ""⟩ : OrderRecord) = extractRow 1 2 3 Option.none Option.none row ∧
      (⟨"1234", "abc", "X", "", ""⟩ : OrderRecord).il = pyCellStr (getCell row 2)) := by
  have h := pallet_stored_as_text 1 2 3 Option.none Option.none
    [[PyVal.str "1234", PyVal.str " abc ", PyVal.str "X"]] "1234"
    ⟨"1234", "abc", "X", "", ""⟩ (by decide)
  exact ⟨h.2.1, h.1⟩
/-! ### Lookup key invariants and claim C10 -/

theorem pyIsDigit_spec {s : String} (h : pyIsDigit s = true) :
    s ≠ "" ∧ s.data.all Char.isDigit := by
  have h2 := (Bool.and_eq_true _ _).mp h
  refine ⟨fun h0 => ?_, h2.2⟩
  subst h0
  exact absurd h (by decide)

theorem mem_keys_insertAssoc {β : Type} (l : List (String × β)) (k x : String)
    (v : β) :
    x ∈ (insertAssoc l k v).map Prod.fst ↔ x = k ∨ x ∈ l.map Prod.fst := by
  induction l with
  | nil => simp [insertAssoc]
  | cons pr rest ih =>
    obtain ⟨k0, v0⟩ := pr
    by_cases h0 : k0 = k
    · subst h0; simp [insertAssoc]
    · simp only [insertAssoc, if_neg h0, List.map_cons, List.mem_cons, ih]
      tauto

theorem mem_insertSet (l : List String) (x y : String) :
    x ∈ insertSet l y ↔ x = y ∨ x ∈ l := by
  unfold insertSet
  by_cases h : y ∈ l
  · simp only [if_pos h]
    constructor
    · exact Or.inr
    · rintro (rfl | hx)
      · exact h
      · exact hx
  · simp only [if_neg h, List.mem_append, List.mem_singleton]
    tauto

theorem bareIds_digits (z : String) :
    ∀ p ∈ bareIds z, p ≠ "" ∧ p.data.all Char.isDigit := by
  intro p hp
  unfold bareIds at hp
  obtain ⟨a, _, hfa⟩ := List.mem_filterMap.mp hp
  by_cases hd : pyIsDigit (String.mk (a.data.filter Char.isDigit)) = true
  · rw [if_pos hd] at hfa
    injection hfa with hfa
    subst hfa
    exact pyIsDigit_spec hd
  · rw [if_neg hd] at hfa
    cases hfa

theorem processRows_inv (rows : List OrderRecord) :
    (∀ k ∈ (processRows rows).1.map Prod.fst, k ≠ "" ∧ k.data.all Char.isDigit) ∧
    (∀ k, k ∈ (processRows rows).1.map Prod.fst ↔ k ∈ (processRows rows).2) := by
  suffices h : ∀ (acc : List (String × OrderRecord) × List String),
      (∀ k ∈ acc.1.map Prod.fst, k ≠ "" ∧ k.data.all Char.isDigit) →
      (∀ k, k ∈ acc.1.map Prod.fst ↔ k ∈ acc.2) →
      (∀ k ∈ (rows.foldl processRow acc).1.map Prod.fst,
        k ≠ "" ∧ k.data.all Char.isDigit) ∧
      (∀ k, k ∈ (rows.foldl processRow acc).1.map Prod.fst ↔
        k ∈ (rows.foldl processRow acc).2) by
    exact h ([], []) (by simp) (by simp)
  induction rows with
  | nil => intro acc h1 h2; exact ⟨h1, h2⟩
  | cons r rows ih =>
    intro acc h1 h2
    rw [List.foldl_cons]
    have hstep : ∀ (ids : List String) (ac : List (String × OrderRecord) × List String),
        (∀ p ∈ ids, p ≠ "" ∧ p.data.all Char.isDigit) →
        (∀ k ∈ ac.1.map Prod.fst, k ≠ "" ∧ k.data.all Char.isDigit) →
        (∀ k, k ∈ ac.1.map Prod.fst ↔ k ∈ ac.2) →
        (∀ k ∈ (ids.foldl (fun a p2 => (insertAssoc a.1 p2 r, insertSet a.2 p2)) ac).1.map
            Prod.fst, k ≠ "" ∧ k.data.all Char.isDigit) ∧
        (∀ k, k ∈ (ids.foldl (fun a p2 => (insertAssoc a.1 p2 r, insertSet a.2 p2)) ac).1.map
            Prod.fst ↔
          k ∈ (ids.foldl (fun a p2 => (insertAssoc a.1 p2 r, insertSet a.2 p2)) ac).2) := by
      intro ids
      induction ids with
      | nil => intro ac hids hk1 hk2; exact ⟨hk1, hk2⟩
      | cons q ids ih2 =>
        intro ac hids hk1 hk2
        rw [List.foldl_cons]
        refine ih2 _ (fun p hp => hids p (List.mem_cons_of_mem _ hp)) ?_ ?_
        · intro k hk
          rcases (mem_keys_insertAssoc ac.1 q k r).mp hk with rfl | hk
          · exact hids k (List.mem_cons_self _ _)
          · exact hk1 k hk
        · intro k
          rw [mem_keys_insertAssoc, mem_insertSet, hk2]
    exact ih _ (hstep (bareIds r.z) acc (bareIds_digits r.z) h1 h2).1
      (hstep (bareIds r.z) acc (bareIds_digits r.z) h1 h2).2

/-- Claim C10: in the output of `read_excel_lookup`, every key of the lookup
table is a non-empty all-digit string, and the key set of the lookup equals
the returned known-number set. -/
theorem lookup_keys_are_digits (hdr : List PyVal) (xrows : List (List PyVal))
    (lk : List (String × OrderRecord)) (ns : List String)
    (h : read_excel_lookup hdr xrows = Except.ok (lk, ns)) :
    (∀ k ∈ lk.map Prod.fst, k ≠ "" ∧ k.data.all Char.isDigit) ∧
    (∀ k, k ∈ lk.map Prod.fst ↔ k ∈ ns) := by
  rw [read_excel_lookup] at h
  split at h
  · injection h with h
    have h1 := congrArg Prod.fst h
    have h2 := congrArg Prod.snd h
    simp only at h1 h2
    subst h1; subst h2
    exact processRows_inv _
  · cases h

/-- Witness for C10 on a concrete spreadsheet. -/
theorem lookup_keys_are_digits_witness :
    ("1234" : String) ≠ "" ∧ ("1234" : String).data.all Char.isDigit := by
  have h := lookup_keys_are_digits
    [PyVal.str "zlecenie", PyVal.str "ilosc palet", PyVal.str "przewoznik"]
    [[PyVal.str "1234", PyVal.int 5, PyVal.str "ACME"]]
    [("1234", ⟨"1234", "5", "ACME", "", ""⟩)] ["1234"] rfl
  exact h.1 "1234" (by decide)

/-! ### Header detection lemmas and claim C9 -/

theorem headerStep_ne (acc : List (String × Nat)) (i : Nat) (v : PyVal)
    (hv : v ≠ PyVal.none) :
    headerStep acc (i, v) = insertAssoc acc (headerKey v) (i + 1) := by
  cases v with
  | none => exact absurd rfl hv
  | str t => rfl
  | int n => rfl
  | floatNaN => rfl

theorem orElse_ne_none {α : Type} (a : Option α) (f : Unit → Option α) :
    (a.orElse f ≠ Option.none) ↔ (a ≠ Option.none ∨ f () ≠ Option.none) := by
  cases a <;> simp [Option.orElse]

theorem lookupGet_headerStep_foldl (name : String) :
    ∀ (l : List (Nat × PyVal)) (acc : List (String × Nat)),
      lookupGet (l.foldl headerStep acc) name ≠ Option.none ↔
        ((∃ pr ∈ l, pr.2 ≠ PyVal.none ∧ headerKey pr.2 = name) ∨
          lookupGet acc name ≠ Option.none) := by
  intro l
  induction l with
  | nil => intro acc; simp
  | cons pr l ih =>
    intro acc
    obtain ⟨i, v⟩ := pr
    rw [List.foldl_cons]
    by_cases hv : v = PyVal.none
    · subst hv
      rw [show headerStep acc (i, PyVal.none) = acc from rfl, ih]
      constructor
      · rintro (⟨q, hq, h1, h2⟩ | hacc)
        · exact Or.inl ⟨q, List.mem_cons_of_mem _ hq, h1, h2⟩
        · exact Or.inr hacc
      · rintro (⟨q, hq, h1, h2⟩ | hacc)
        · rcases List.mem_cons.mp hq with rfl | hq
          · exact absurd rfl h1
          · exact Or.inl ⟨q, hq, h1, h2⟩
        · exact Or.inr hacc
    · rw [headerStep_ne acc i v hv, ih]
      by_cases hn : name = headerKey v
      · constructor
        · intro _
          exact Or.inl ⟨(i, v), List.mem_cons_self _ _, hv, hn.symm⟩
        · intro _
          refine Or.inr ?_
          rw [lookupGet_insertAssoc, if_pos hn]
          simp
      · constructor
        · rintro (⟨q, hq, h1, h2⟩ | hacc)
          · exact Or.inl ⟨q, List.mem_cons_of_mem _ hq, h1, h2⟩
          · rw [lookupGet_insertAssoc, if_neg hn] at hacc
            exact Or.inr hacc
        · rintro (⟨q, hq, h1, h2⟩ | hacc)
          · rcases List.mem_cons.mp hq with rfl | hq
            · exact absurd h2.symm hn
            · exact Or.inl ⟨q, hq, h1, h2⟩
          · refine Or.inr ?_
            rw [lookupGet_insertAssoc, if_neg hn]
            exact hacc

theorem hdrHas_iff_ne_none (hdr : List PyVal) (name : String) :
    lookupGet (buildHeaders hdr) name ≠ Option.none ↔ hdrHas hdr name := by
  rw [buildHeaders, lookupGet_headerStep_foldl]
  constructor
  · rintro (⟨pr, hpr, h1, h2⟩ | hbad)
    · have hmem : pr.2 ∈ hdr := by
        have hh := List.enum_map_snd hdr
        exact hh ▸ List.mem_map_of_mem Prod.snd hpr
      exact ⟨pr.2, hmem, h1, h2⟩
    · exact absurd rfl hbad
  · rintro ⟨v, hv, h1, h2⟩
    have hm : v ∈ hdr.enum.map Prod.snd := by
      rw [List.enum_map_snd]; exact hv
    obtain ⟨pr, hpr, hpr2⟩ := List.mem_map.mp hm
    exact Or.inl ⟨pr, hpr, hpr2 ▸ h1, hpr2 ▸ h2⟩

theorem eq_none_iff_not {α : Type} (o : Option α) (P : Prop)
    (h : o ≠ Option.none ↔ P) : o = Option.none ↔ ¬P := by
  cases o <;> simp_all

/-- Claim C9: the lookup builder fails (and the whole run yields no output,
the error propagating through `annotate_pdf_web`) exactly when one of the
three required columns — ZLECENIE, ilość palet (three accepted spellings),
przewoźnik (two spellings) — is absent from the header row under
case-insensitive, whitespace-trimmed matching; absent optional columns
(UWAGI, DOK) are no error and default the record fields to the empty
string. -/
theorem required_columns (hdr : List PyVal) (xrows : List (List PyVal)) :
    ((∃ e, read_excel_lookup hdr xrows = Except.error e) ↔
      (¬hdrHas hdr "zlecenie" ∨
        ¬(hdrHas hdr "ilośc palet" ∨ hdrHas hdr "ilosc palet" ∨
          hdrHas hdr "ilość palet") ∨
        ¬(hdrHas hdr "przewoźnik" ∨ hdrHas hdr "przewoznik"))) ∧
    (¬hdrHas hdr "uwagi" → ¬hdrHas hdr "dok" →
      ∀ (lk : List (String × OrderRecord)) (ns : List String) (k : String)
        (r : OrderRecord),
        read_excel_lookup hdr xrows = Except.ok (lk, ns) →
        lookupGet lk k = some r → r.uw = "" ∧ r.dok = "") ∧
    (∀ (e : String) (texts : List String) (sizes : List (ℚ × ℚ)) (mps : Nat),
      read_excel_lookup hdr xrows = Except.error e →
      annotate_pdf_web hdr xrows texts sizes mps = Except.error e) := by
  have hZ := eq_none_iff_not _ _ (hdrHas_iff_ne_none hdr "zlecenie")
  have hI : ((lookupGet (buildHeaders hdr) "ilośc palet").orElse
      (fun _ => lookupGet (buildHeaders hdr) "ilosc palet")).orElse
      (fun _ => lookupGet (buildHeaders hdr) "ilość palet") = Option.none ↔
      ¬(hdrHas hdr "ilośc palet" ∨ hdrHas hdr "ilosc palet" ∨
        hdrHas hdr "ilość palet") := by
    refine eq_none_iff_not _ _ ?_
    rw [orElse_ne_none, orElse_ne_none, hdrHas_iff_ne_none, hdrHas_iff_ne_none,
      hdrHas_iff_ne_none]
    tauto
  have hP : (lookupGet (buildHeaders hdr) "przewoźnik").orElse
      (fun _ => lookupGet (buildHeaders hdr) "przewoznik") = Option.none ↔
      ¬(hdrHas hdr "przewoźnik" ∨ hdrHas hdr "przewoznik") := by
    refine eq_none_iff_not _ _ ?_
    rw [orElse_ne_none, hdrHas_iff_ne_none, hdrHas_iff_ne_none]
  refine ⟨?_, ?_, ?_⟩
  · rcases hzc : lookupGet (buildHeaders hdr) "zlecenie" with _ | zc <;>
      rcases hic : ((lookupGet (buildHeaders hdr) "ilośc palet").orElse
        (fun _ => lookupGet (buildHeaders hdr) "ilosc palet")).orElse
        (fun _ => lookupGet (buildHeaders hdr) "ilość palet") with _ | ic <;>
      rcases hpc : (lookupGet (buildHeaders hdr) "przewoźnik").orElse
        (fun _ => lookupGet (buildHeaders hdr) "przewoznik") with _ | pc <;>
      rw [hzc] at hZ <;> rw [hic] at hI <;> rw [hpc] at hP <;>
      simp only [read_excel_lookup, hzc, hic, hpc] <;>
      simp_all
  · intro huw hdok lk ns k r hok hget
    have huw' : lookupGet (buildHeaders hdr) "uwagi" = Option.none :=
      (eq_none_iff_not _ _ (hdrHas_iff_ne_none hdr "uwagi")).mpr huw
    have hdok' : lookupGet (buildHeaders hdr) "dok" = Option.none :=
      (eq_none_iff_not _ _ (hdrHas_iff_ne_none hdr "dok")).mpr hdok
    simp only [read_excel_lookup, huw', hdok'] at hok
    split at hok
    · injection hok with hok
      have hlk : lk = (processRows (xrows.map (extractRow _ _ _ Option.none
          Option.none))).1 := (congrArg Prod.fst hok).symm
      rw [hlk, lookupGet_processRows] at hget
      have hmem := (List.mem_filter.mp (mem_of_getLast? hget)).1
      obtain ⟨row, _, hrE⟩ := List.mem_map.mp hmem
      rw [← hrE]
      exact ⟨rfl, rfl⟩
    · cases hok
  · intro e texts sizes mps h
    simp only [annotate_pdf_web, h]

/-- Witness for C9: with UWAGI and DOK absent the stored optional fields are
empty, and a header missing the carrier column makes the whole run fail with
the configuration error. -/
theorem required_columns_witness :
    ({ z := "1234", il := "5", pr := "ACME", uw := "", dok := "" } : OrderRecord).uw = "" ∧
    ({ z := "1234", il := "5", pr := "ACME", uw := "", dok := "" } : OrderRecord).dok = "" ∧
    annotate_pdf_web [PyVal.str "zlecenie", PyVal.str "ilosc palet"] [] ["x"] [] 3 =
      Except.error
        "Excel musi mieć kolumny: ZLECENIE, ilość palet, przewoźnik (nagłówki w 1. wierszu)." := by
  have h2 := (required_columns hdrW6 rowsW6).2.1 (by decide) (by decide)
    [("1234", ⟨"1234", "5", "ACME", "", ""⟩), ("7777", ⟨"7777", "2", "DHL", "", ""⟩)]
    ["1234", "7777"] "1234" ⟨"1234", "5", "ACME", "", ""⟩ rfl (by decide)
  have h3 := (required_columns [PyVal.str "zlecenie", PyVal.str "ilosc palet"] []).2.2
    "Excel musi mieć kolumny: ZLECENIE, ilość palet, przewoźnik (nagłówki w 1. wierszu)."
    ["x"] [] 3 rfl
  exact ⟨h2.1, h2.2, h3⟩

/-! ### Classification partition lemmas and claim C1 -/

theorem addToGroup_fst (g : List (String × List Nat)) (k : String) (i : Nat) :
    (addToGroup g k i).map Prod.fst =
      if k ∈ g.map Prod.fst then g.map Prod.fst else g.map Prod.fst ++ [k] := by
  induction g with
  | nil => simp [addToGroup]
  | cons pr rest ih =>
    obtain ⟨k0, l0⟩ := pr
    by_cases h0 : k0 = k
    · subst h0
      simp [addToGroup]
    · simp only [addToGroup, if_neg h0, List.map_cons, ih, List.mem_cons]
      have hkk : ¬k = k0 := fun hh => h0 hh.symm
      by_cases hk : k ∈ rest.map Prod.fst
      · simp [hk, hkk]
      · simp [hk, hkk]

theorem mem_addToGroup (g : List (String × List Nat)) (k : String) (i j : Nat) :
    (∃ pr ∈ addToGroup g k i, j ∈ pr.2) ↔ (∃ pr ∈ g, j ∈ pr.2) ∨ j = i := by
  induction g with
  | nil => simp [addToGroup]
  | cons pr rest ih =>
    obtain ⟨k0, l0⟩ := pr
    by_cases h0 : k0 = k
    · subst h0
      have hred : addToGroup ((k0, l0) :: rest) k0 i = (k0, l0 ++ [i]) :: rest := by
        simp [addToGroup]
      rw [hred]
      constructor
      · rintro ⟨q, hq, hj⟩
        rcases List.mem_cons.mp hq with rfl | hq
        · rcases List.mem_append.mp hj with hj | hj
          · exact Or.inl ⟨(k0, l0), List.mem_cons_self _ _, hj⟩
          · exact Or.inr (List.mem_singleton.mp hj)
        · exact Or.inl ⟨q, List.mem_cons_of_mem _ hq, hj⟩
      · rintro (⟨q, hq, hj⟩ | hji)
        · rcases List.mem_cons.mp hq with rfl | hq
          · exact ⟨(k0, l0 ++ [i]), List.mem_cons_self _ _, List.mem_append_left _ hj⟩
          · exact ⟨q, List.mem_cons_of_mem _ hq, hj⟩
        · exact ⟨(k0, l0 ++ [i]), List.mem_cons_self _ _,
            List.mem_append_right _ (List.mem_singleton.mpr hji)⟩
    · simp only [addToGroup, if_neg h0]
      constructor
      · rintro ⟨q, hq, hj⟩
        rcases List.mem_cons.mp hq with rfl | hq
        · exact Or.inl ⟨(k0, l0), List.mem_cons_self _ _, hj⟩
        · rcases ih.mp ⟨q, hq, hj⟩ with ⟨q2, hq2, hj2⟩ | rfl
          · exact Or.inl ⟨q2, List.mem_cons_of_mem _ hq2, hj2⟩
          · exact Or.inr rfl
      · rintro (⟨q, hq, hj⟩ | rfl)
        · rcases List.mem_cons.mp hq with rfl | hq
          · exact ⟨(k0, l0), List.mem_cons_self _ _, hj⟩
          · obtain ⟨q2, hq2, hj2⟩ := ih.mpr (Or.inl ⟨q, hq, hj⟩)
            exact ⟨q2, List.mem_cons_of_mem _ hq2, hj2⟩
        · obtain ⟨q2, hq2, hj2⟩ := ih.mpr (Or.inr rfl)
          exact ⟨q2, List.mem_cons_of_mem _ hq2, hj2⟩

theorem addToGroup_entries (g : List (String × List Nat)) (k : String) (i : Nat)
    (pr : String × List Nat) (h : pr ∈ addToGroup g k i) :
    pr ∈ g ∨ (∃ l, (k, l) ∈ g ∧ pr = (k, l ++ [i])) ∨ pr = (k, [i]) := by
  induction g with
  | nil =>
    simp only [addToGroup, List.mem_singleton] at h
    exact Or.inr (Or.inr h)
  | cons q rest ih =>
    obtain ⟨k0, l0⟩ := q
    by_cases h0 : k0 = k
    · subst h0
      simp only [addToGroup, if_pos rfl] at h
      rcases List.mem_cons.mp h with rfl | h
      · exact Or.inr (Or.inl ⟨l0, List.mem_cons_self _ _, rfl⟩)
      · exact Or.inl (List.mem_cons_of_mem _ h)
    · simp only [addToGroup, if_neg h0] at h
      rcases List.mem_cons.mp h with rfl | h
      · exact Or.inl (List.mem_cons_self _ _)
      · rcases ih h with hg | ⟨l, hl, rfl⟩ | rfl
        · exact Or.inl (List.mem_cons_of_mem _ hg)
        · exact Or.inr (Or.inl ⟨l, List.mem_cons_of_mem _ hl, rfl⟩)
        · exact Or.inr (Or.inr rfl)

theorem addToGroup_pairwise (g : List (String × List Nat)) (k : String) (i : Nat)
    (hni : ∀ pr ∈ g, i ∉ pr.2)
    (hpw : g.Pairwise (fun a b => ∀ j, j ∈ a.2 → j ∉ b.2)) :
    (addToGroup g k i).Pairwise (fun a b => ∀ j, j ∈ a.2 → j ∉ b.2) := by
  induction g with
  | nil => simp [addToGroup]
  | cons q rest ih =>
    obtain ⟨k0, l0⟩ := q
    rcases List.pairwise_cons.mp hpw with ⟨hhead, hrest⟩
    by_cases h0 : k0 = k
    · subst h0
      simp only [addToGroup, if_pos rfl]
      refine List.pairwise_cons.mpr ⟨?_, hrest⟩
      intro b hb j hj
      rcases List.mem_append.mp hj with hj | hj
      · exact hhead b hb j hj
      · rcases List.mem_singleton.mp hj with rfl
        exact fun hc => hni b (List.mem_cons_of_mem _ hb) hc
    · simp only [addToGroup, if_neg h0]
      refine List.pairwise_cons.mpr
        ⟨?_, ih (fun pr hpr => hni pr (List.mem_cons_of_mem _ hpr)) hrest⟩
      intro b hb j hj
      rcases addToGroup_entries rest k i b hb with hbg | ⟨l, hl, rfl⟩ | rfl
      · exact hhead b hbg j hj
      · intro hc
        rcases List.mem_append.mp hc with hc | hc
        · exact hhead (k, l) hl j hj hc
        · rcases List.mem_singleton.mp hc with rfl
          exact hni (k0, l0) (List.mem_cons_self _ _) hj
      · intro hc
        rcases List.mem_singleton.mp hc with rfl
        exact hni (k0, l0) (List.mem_cons_self _ _) hj

theorem addToGroup_good (g : List (String × List Nat)) (k : String) (i : Nat)
    (hi : 1 ≤ i) (hg : GoodGroups g i) : GoodGroups (addToGroup g k i) (i + 1) := by
  obtain ⟨hnd, hcov, hlnd, hpw⟩ := hg
  have hni : ∀ pr ∈ g, i ∉ pr.2 := by
    intro pr hpr hmem
    exact Nat.lt_irrefl i ((hcov i).mp ⟨pr, hpr, hmem⟩).2
  refine ⟨?_, ?_, ?_, addToGroup_pairwise g k i hni hpw⟩
  · rw [addToGroup_fst]
    by_cases hk : k ∈ g.map Prod.fst
    · rw [if_pos hk]; exact hnd
    · rw [if_neg hk]
      exact List.nodup_append.mpr ⟨hnd, List.nodup_singleton k,
        fun x hx hxk => hk ((List.mem_singleton.mp hxk) ▸ hx)⟩
  · intro j
    rw [mem_addToGroup, hcov j]
    omega
  · intro pr hpr
    rcases addToGroup_entries g k i pr hpr with hg2 | ⟨l, hl, rfl⟩ | rfl
    · exact hlnd pr hg2
    · refine List.nodup_append.mpr ⟨hlnd (k, l) hl, List.nodup_singleton i, ?_⟩
      intro x hx hxi
      rcases List.mem_singleton.mp hxi with rfl
      exact hni (k, l) hl hx
    · exact List.nodup_singleton i

/-- Claim C1 (amended): after classification, the source pages processed by
the loop — every page index except the skipped first page (index 0) — are
partitioned by the groups: group keys are distinct, the groups' page lists
cover exactly the indices `1 .. len-1`, no group repeats a page, and two
distinct groups never share a page. -/
theorem classify_partition (texts : List String)
    (lookup : List (String × OrderRecord)) (excel : List String) :
    ((classifyPages texts lookup excel).groups.map Prod.fst).Nodup ∧
    (∀ j, (∃ pr ∈ (classifyPages texts lookup excel).groups, j ∈ pr.2) ↔
      (1 ≤ j ∧ j < texts.length)) ∧
    (∀ pr ∈ (classifyPages texts lookup excel).groups, pr.2.Nodup) ∧
    (classifyPages texts lookup excel).groups.Pairwise
      (fun a b => ∀ j, j ∈ a.2 → j ∉ b.2) := by
  have hstep : ∀ (st : ClassifyState) (i : Nat), 1 ≤ i → GoodGroups st.groups i →
      GoodGroups (classifyStep lookup excel texts st i).groups (i + 1) := by
    intro st i hi hg
    have hkey : ∃ key, (classifyStep lookup excel texts st i).groups =
        addToGroup st.groups key i := ⟨_, rfl⟩
    obtain ⟨key, hkeq⟩ := hkey
    rw [hkeq]
    exact addToGroup_good st.groups key i hi hg
  have haux : ∀ m : Nat, GoodGroups
      (((List.range' 1 m).foldl (classifyStep lookup excel texts)
        ⟨[], [], [], []⟩).groups) (m + 1) := by
    intro m
    induction m with
    | zero =>
      refine ⟨by simp, ?_, by simp, by simp⟩
      intro j
      simp only [List.range'_zero, List.foldl_nil]
      constructor
      · rintro ⟨pr, hpr, _⟩
        exact absurd hpr (List.not_mem_nil pr)
      · intro h
        omega
    | succ m ih =>
      have hconcat : List.range' 1 (m + 1) = List.range' 1 m ++ [1 + m] := by
        have := @List.range'_concat 1 1 m
        simpa using this
      rw [hconcat, List.foldl_concat]
      have h1 : GoodGroups (((List.range' 1 m).foldl (classifyStep lookup excel texts)
          ⟨[], [], [], []⟩).groups) (1 + m) := by
        rw [Nat.add_comm 1 m]; exact ih
      have := hstep _ (1 + m) (by omega) h1
      rw [show 1 + m + 1 = m + 1 + 1 from by omega] at this
      exact this
  have hmain : GoodGroups (classifyPages texts lookup excel).groups texts.length := by
    rw [classifyPages]
    cases h : texts.length with
    | zero =>
      simp only [h, Nat.zero_sub, List.range'_zero, List.foldl_nil]
      refine ⟨by simp, ?_, by simp, by simp⟩
      intro j
      constructor
      · rintro ⟨pr, hpr, _⟩
        exact absurd hpr (List.not_mem_nil pr)
      · intro hj
        omega
    | succ n =>
      simp only [Nat.add_sub_cancel]
      exact haux n
  exact hmain

/-- Claim C1 (counterexample): the page loop starts at index 1, so the first
source page (index 0) of a 2-page document belongs to no group — the groups
do not cover all source page indices. -/
theorem classify_skips_first_page :
    (["cover", "1234"] : List String).length = 2 ∧
    ¬∃ pr ∈ (classifyPages ["cover", "1234"] [] []).groups, (0 : Nat) ∈ pr.2 := by
  exact ⟨rfl, by decide⟩

/-- Witness for C1's amended statement on a concrete 2-page document. -/
theorem classify_partition_witness :
    ((classifyPages ["cover", "1234"] [] []).groups.map Prod.fst).Nodup ∧
    1 ∈ ((classifyPages ["cover", "1234"] [] []).groups.map Prod.snd).flatten := by
  refine ⟨(classify_partition ["cover", "1234"] [] []).1, ?_⟩
  obtain ⟨pr, hpr, hmem⟩ :=
    ((classify_partition ["cover", "1234"] [] []).2.1 1).mpr (by decide)
  exact List.mem_flatten.mpr ⟨pr.2, List.mem_map_of_mem Prod.snd hpr, hmem⟩

/-! ### Summary report lemmas and claim C6 -/

theorem summaryLoop_ne_nil (H : ℚ) :
    ∀ (l : List String) (y : ℚ) (acc : List String), summaryLoop H l y acc ≠ [] := by
  intro l
  induction l with
  | nil => intro y acc; simp [summaryLoop]
  | cons n rest ih =>
    intro y acc
    simp only [summaryLoop]
    split
    · exact List.cons_ne_nil _ _
    · exact ih _ _

theorem summaryLoop_acc (H : ℚ) :
    ∀ (l : List String) (y : ℚ) (acc : List String),
      ∃ pg ∈ summaryLoop H l y acc, ∀ a ∈ acc, a ∈ pg := by
  intro l
  induction l with
  | nil =>
    intro y acc
    exact ⟨acc, List.mem_singleton.mpr rfl, fun a ha => ha⟩
  | cons n rest ih =>
    intro y acc
    simp only [summaryLoop]
    split
    · refine ⟨acc ++ [n], List.mem_cons_self _ _, ?_⟩
      intro a ha
      exact List.mem_append_left _ ha
    · obtain ⟨pg, hpg, hsub⟩ := ih (y - 14) (acc ++ [n])
      exact ⟨pg, hpg, fun a ha => hsub a (List.mem_append_left _ ha)⟩

theorem summaryLoop_covers (H : ℚ) :
    ∀ (l : List String) (y : ℚ) (acc : List String),
      ∀ x ∈ l, ∃ pg ∈ summaryLoop H l y acc, x ∈ pg := by
  intro l
  induction l with
  | nil =>
    intro y acc x hx
    exact absurd hx (List.not_mem_nil x)
  | cons n rest ih =>
    intro y acc x hx
    simp only [summaryLoop]
    split
    · rcases List.mem_cons.mp hx with rfl | hx
      · exact ⟨acc ++ [x], List.mem_cons_self _ _,
          List.mem_append_right _ (List.mem_singleton.mpr rfl)⟩
      · obtain ⟨pg, hpg, hxpg⟩ := ih (H - 60) [] x hx
        exact ⟨pg, List.mem_cons_of_mem _ hpg, hxpg⟩
    · rcases List.mem_cons.mp hx with rfl | hx
      · obtain ⟨pg, hpg, hsub⟩ := summaryLoop_acc H rest (y - 14) (acc ++ [x])
        exact ⟨pg, hpg, hsub x (List.mem_append_right _ (List.mem_singleton.mpr rfl))⟩
      · exact ih (y - 14) (acc ++ [n]) x hx

theorem make_summary_page_ne_nil (missing : List String) :
    make_summary_page missing [] ≠ [] := by
  rw [make_summary_page]
  split
  · exact List.cons_ne_nil _ _
  · exact summaryLoop_ne_nil _ _ _ _

theorem missing_sorted (ex found : List String) :
    List.Sorted intLe (if ex.isEmpty then ([] : List String)
      else List.insertionSort intLe (ex.filter (fun x => decide (x ∉ found)))) ∧
    (if ex.isEmpty then ([] : List String)
      else List.insertionSort intLe (ex.filter (fun x => decide (x ∉ found)))).Perm
      (ex.filter (fun x => decide (x ∉ found))) := by
  cases ex with
  | nil => simp
  | cons a l =>
    have hne : ¬((a :: l).isEmpty = true) := by simp
    rw [if_neg hne]
    exact ⟨List.sorted_insertionSort intLe _, List.perm_insertionSort intLe _⟩

theorem report_shape (m : List String) :
    ((m = []) ↔
      (if m.isEmpty then ([] : List (List String)) else make_summary_page m []) = []) ∧
    (∀ x ∈ m,
      ∃ pg ∈ (if m.isEmpty then ([] : List (List String)) else make_summary_page m []),
        x ∈ pg) := by
  cases m with
  | nil => simp
  | cons a l =>
    have hne : ¬((a :: l).isEmpty = true) := by simp
    rw [if_neg hne]
    refine ⟨⟨fun h0 => absurd h0 (List.cons_ne_nil a l),
      fun h0 => absurd h0 (make_summary_page_ne_nil (a :: l))⟩, ?_⟩
    intro x hx
    rw [make_summary_page, if_neg hne]
    exact summaryLoop_covers A4H (a :: l) (A4H - 122) summaryHeader x hx

/-- Claim C6 (amended): `excelMissing` is the spreadsheet's known identifiers
minus those matched on any page, sorted numerically ascending; the report
pages come after all content pages in the output document and list every
missing identifier; but the report is appended only when `excelMissing` is
non-empty — when it is empty no summary page is produced at all (the
"(brak)" placeholder branch exists in `make_summary_page` yet is unreachable
from the pipeline). -/
theorem discrepancy_report (hdr : List PyVal) (xrows : List (List PyVal))
    (texts : List String) (sizes : List (ℚ × ℚ)) (mps : Nat)
    (res : AnnotateResult)
    (h : annotate_pdf_web hdr xrows texts sizes mps = Except.ok res) :
    List.Sorted intLe res.excelMissing ∧
    res.excelMissing.Perm
      (res.excelNumbers.filter (fun x => decide (x ∉ res.foundInPdf))) ∧
    res.outputPages = res.contentPages.map OutPage.content ++
      res.reportPages.map OutPage.report ∧
    (res.excelMissing = [] ↔ res.reportPages = []) ∧
    (∀ x ∈ res.excelMissing, ∃ pg ∈ res.reportPages, x ∈ pg) ∧
    "(brak)" ∈ (make_summary_page [] []).flatten := by
  simp only [annotate_pdf_web] at h
  split at h
  · cases h
  · injection h with h
    subst h
    exact ⟨(missing_sorted _ _).1, (missing_sorted _ _).2, rfl,
      (report_shape _).1, (report_shape _).2, by decide⟩

/-- Claim C6 (counterexample): on an input whose every spreadsheet identifier
is matched in the PDF, `excelMissing` is empty and the output document
contains no summary page at all — no "(brak)" placeholder page is ever
appended. -/
theorem no_report_when_all_matched :
    (annotate_pdf_web
        [PyVal.str "zlecenie", PyVal.str "ilosc palet", PyVal.str "przewoznik"]
        [[PyVal.str "1234", PyVal.int 5, PyVal.str "ACME"]]
        ["", "1234"] [(A4W, A4H), (A4W, A4H)] 3).map
      (fun r => (r.excelMissing, r.reportPages)) = Except.ok ([], []) := rfl

/-- Witness for C6's amended statement on a concrete input with one missing
identifier. -/
theorem discrepancy_report_witness :
    List.Sorted intLe annW6.excelMissing ∧
    (annW6.excelMissing = [] ↔ annW6.reportPages = []) := by
  have hres : annotate_pdf_web hdrW6 rowsW6 ["", "1234"] [(A4W, A4H), (A4W, A4H)] 3 =
      Except.ok annW6 := rfl
  have h := discrepancy_report hdrW6 rowsW6 ["", "1234"]
    [(A4W, A4H), (A4W, A4H)] 3 annW6 hres
  exact ⟨h.1, h.2.2.2.1⟩
